import Mathlib

/-!
# Verification of the smart-rag core pipeline

A shallow embedding, in Lean 4, of the chunking / retrieval / generation
core of the `smart-rag` repository (`src/services/chunker.py`,
`src/services/retriever.py`, `src/services/generator.py` and the models in
`src/models/`), together with theorems settling the specification's
testable properties.

Modelling conventions:
* Python `str` is modelled as `List Char`; `str.lower` is modelled with
  `Char.toLower` (the corpus is ASCII text).
* Python `float` is modelled as `ℚ`; `round(x, n)` is Python's
  round-half-to-even, modelled exactly.
* External collaborators (OpenAI client, the cross-encoder `predict`,
  `math.exp`, `json.loads`, the vector store) are parameters of the
  embedded functions, exactly at the call boundaries the code has.
-/

namespace SmartRag

/-! ## Python string primitives over `List Char` -/

/-- The characters Python's `str.strip()` / `str.split()` treat as
whitespace (the ASCII ones; the corpus is ASCII). -/
def pyIsSpace (c : Char) : Bool :=
  c = ' ' || c = '\t' || c = '\n' || c = '\x0d' || c = '\x0b' || c = '\x0c'

/-- Python `s.strip()`: drop whitespace from both ends. -/
def pyStrip (l : List Char) : List Char :=
  ((l.dropWhile pyIsSpace).reverse.dropWhile pyIsSpace).reverse

/-- Python `s.lower()` (ASCII). -/
def pyLower (l : List Char) : List Char :=
  l.map Char.toLower

/-- Python `s.split()` with no separator: maximal runs of non-whitespace,
no empty pieces. -/
def pyWords (l : List Char) : List (List Char) :=
  (l.splitOnP pyIsSpace).filter (fun w => ¬ w.isEmpty)

/-- Python `s.replace("\n", " ")`. -/
def pyNlToSpace (l : List Char) : List Char :=
  l.map (fun c => if c = '\n' then ' ' else c)

/-- `leadsWith needle hay`: `needle` is an initial segment of `hay`
(Python `hay.startswith(needle)`). -/
def leadsWith : List Char → List Char → Bool
  | [], _ => true
  | _ :: _, [] => false
  | a :: s, b :: t => a = b && leadsWith s t

/-- Python `needle in hay` (substring containment; `"" in s` is `True`). -/
def containsSeq (needle : List Char) : List Char → Bool
  | [] => leadsWith needle []
  | b :: t => leadsWith needle (b :: t) || containsSeq needle t

/-- Python `s.split(sep)` for a two-character separator `[a, b]`
(left-to-right, non-overlapping, empty pieces kept). -/
def split2 (a b : Char) : List Char → List (List Char)
  | [] => [[]]
  | [c] => [[c]]
  | c :: d :: rest =>
    if c = a ∧ d = b then
      [] :: split2 a b rest
    else
      match split2 a b (d :: rest) with
      | [] => [[c]]
      | p :: ps => (c :: p) :: ps

/-- Python `s.rfind(needle, 0, e)` as an `Option`: the largest index `i`
such that `needle` occurs at `i` entirely inside `s[0:e]`
(`none` models Python's `-1`). -/
def pyRfind (needle l : List Char) (e : ℕ) : Option ℕ :=
  ((List.range ((l.take e).length + 1)).filter
    (fun i => leadsWith needle ((l.take e).drop i))).getLast?

/-! ## Python numerics over `ℚ` -/

/-- Round a rational to the nearest integer, ties to even
(Python's `round` on floats, on exactly-representable inputs). -/
def pyRoundInt (q : ℚ) : ℤ :=
  if q - ⌊q⌋ < 1/2 then ⌊q⌋
  else if 1/2 < q - ⌊q⌋ then ⌊q⌋ + 1
  else if Even ⌊q⌋ then ⌊q⌋ else ⌊q⌋ + 1

/-- Python `round(q, n)`. -/
def pyRound (n : ℕ) (q : ℚ) : ℚ :=
  (pyRoundInt (q * 10 ^ n) : ℚ) / 10 ^ n

theorem pyRoundInt_le_of_le {q : ℚ} {B : ℤ} (hq : q ≤ B) : pyRoundInt q ≤ B := by
  unfold pyRoundInt
  have hf : ⌊q⌋ ≤ B := Int.le_floor.mpr (le_trans (Int.floor_le q) hq)
  have key : ¬ (q - ⌊q⌋ < 1/2) → ⌊q⌋ + 1 ≤ B := by
    intro h
    have h2 : (1:ℚ)/2 ≤ q - ⌊q⌋ := not_lt.mp h
    have hlt : (⌊q⌋ : ℚ) < q := by linarith
    have : ⌊q⌋ < B := by exact_mod_cast lt_of_lt_of_le hlt hq
    omega
  split_ifs with h1 h2 h3
  · exact hf
  · exact key h1
  · exact hf
  · exact key h1

theorem le_pyRoundInt_of_le {q : ℚ} {B : ℤ} (hq : (B : ℚ) ≤ q) : B ≤ pyRoundInt q := by
  unfold pyRoundInt
  have hf : B ≤ ⌊q⌋ := Int.le_floor.mpr hq
  split_ifs with h1 h2 h3 <;> omega

theorem pyRound_nonneg {n : ℕ} {q : ℚ} (h : 0 ≤ q) : 0 ≤ pyRound n q := by
  unfold pyRound
  have hb : (0:ℤ) ≤ pyRoundInt (q * 10 ^ n) := by
    apply le_pyRoundInt_of_le
    have : (0:ℚ) ≤ q * 10 ^ n := by positivity
    simpa using this
  have : (0:ℚ) ≤ (pyRoundInt (q * 10 ^ n) : ℚ) := by exact_mod_cast hb
  positivity

theorem pyRound_le_one {n : ℕ} {q : ℚ} (h : q ≤ 1) : pyRound n q ≤ 1 := by
  unfold pyRound
  have hb : pyRoundInt (q * 10 ^ n) ≤ (10 ^ n : ℤ) := by
    apply pyRoundInt_le_of_le
    push_cast
    have hpow : (0:ℚ) < 10 ^ n := by positivity
    nlinarith
  have hcast : (pyRoundInt (q * 10 ^ n) : ℚ) ≤ (10 : ℚ) ^ n := by
    exact_mod_cast hb
  have hpow : (0:ℚ) < (10:ℚ) ^ n := by positivity
  rw [div_le_one hpow]
  exact hcast

/-- If `b ≤ 100 q` then `b/100 ≤ round(q, 2)` (and similarly for any
precision); used to bound rounded values away from zero. -/
theorem le_pyRound {n : ℕ} {q : ℚ} {b : ℤ} (h : (b : ℚ) ≤ q * 10 ^ n) :
    (b : ℚ) / 10 ^ n ≤ pyRound n q := by
  unfold pyRound
  have hpow : (0:ℚ) < (10:ℚ) ^ n := by positivity
  have hb : (b:ℚ) ≤ (pyRoundInt (q * 10 ^ n) : ℚ) := by
    exact_mod_cast le_pyRoundInt_of_le h
  exact (div_le_div_iff_of_pos_right hpow).mpr hb

/-! ## Stable sorting (Python `list.sort(key=…, reverse=True)`) -/

/-- Insert an element into a descending-sorted list, before the first
element whose key is `≤` its own (this is exactly the placement a stable
descending sort gives to an element coming earlier in the input). -/
def insDesc {α : Type} (key : α → ℚ) (c : α) : List α → List α
  | [] => [c]
  | x :: xs => if key x ≤ key c then c :: x :: xs else x :: insDesc key c xs

/-- Stable sort, descending by `key`: Python's
`list.sort(key=…, reverse=True)`. -/
def sortDesc {α : Type} (key : α → ℚ) : List α → List α
  | [] => []
  | x :: xs => insDesc key x (sortDesc key xs)

theorem perm_insDesc {α : Type} (key : α → ℚ) (c : α) (l : List α) :
    (insDesc key c l).Perm (c :: l) := by
  induction l with
  | nil => simp [insDesc]
  | cons x xs ih =>
    rw [insDesc]
    by_cases hx : key x ≤ key c
    · simp [hx]
    · rw [if_neg hx]
      exact ((ih.cons x).trans (List.Perm.swap c x xs))

theorem mem_insDesc {α : Type} {key : α → ℚ} {c b : α} {l : List α} :
    b ∈ insDesc key c l ↔ b = c ∨ b ∈ l := by
  rw [(perm_insDesc key c l).mem_iff, List.mem_cons]

theorem sorted_insDesc {α : Type} (key : α → ℚ) (c : α) (l : List α)
    (h : l.Sorted (fun x y => key y ≤ key x)) :
    (insDesc key c l).Sorted (fun x y => key y ≤ key x) := by
  induction l with
  | nil => simp [insDesc]
  | cons x xs ih =>
    rw [List.sorted_cons] at h
    by_cases hx : key x ≤ key c
    · rw [insDesc, if_pos hx, List.sorted_cons]
      refine ⟨fun b hb => ?_, List.sorted_cons.mpr h⟩
      rcases List.mem_cons.mp hb with hb | hb
      · exact hb ▸ hx
      · exact le_trans (h.1 b hb) hx
    · rw [insDesc, if_neg hx, List.sorted_cons]
      refine ⟨fun b hb => ?_, ih h.2⟩
      rcases mem_insDesc.mp hb with hb | hb
      · exact hb ▸ le_of_not_le hx
      · exact h.1 b hb

theorem perm_sortDesc {α : Type} (key : α → ℚ) (l : List α) :
    (sortDesc key l).Perm l := by
  induction l with
  | nil => simp [sortDesc]
  | cons x xs ih =>
    exact (perm_insDesc key x (sortDesc key xs)).trans (ih.cons x)

theorem sorted_sortDesc {α : Type} (key : α → ℚ) (l : List α) :
    (sortDesc key l).Sorted (fun x y => key y ≤ key x) := by
  induction l with
  | nil => simp [sortDesc]
  | cons x xs ih => exact sorted_insDesc key x _ ih

/-! ## Retriever (`src/services/retriever.py`)

`RetrievedChunk` is the dataclass of `retriever.py` (all fields; Python
dataclass equality compares all fields, which matters for the
`chunk in selected` test of `_select_diverse_chunks`). -/

structure RetrievedChunk where
  id : List Char
  content : List Char
  document_id : List Char
  document_name : List Char
  page_number : ℕ
  page_end : Option ℕ
  chunk_index : ℕ
  has_table : Bool
  similarity_score : ℚ
  relevance_score : ℚ := 0
  deriving DecidableEq, Repr

/-- `Retriever._normalize_scores`: sigmoid then `round(·, 4)`.
`expF` models `math.exp` (an external float routine). -/
def normalizeScores (expF : ℚ → ℚ) (scores : List ℚ) : List ℚ :=
  scores.map (fun score => pyRound 4 (1 / (1 + expF (-score))))

/-- `Retriever._rerank`: score every `(query, content)` pair with the
cross-encoder (`predict`, external), normalize, attach as
`relevance_score`, stable-sort descending, truncate to `top_k`. -/
def rerank (expF : ℚ → ℚ) (predict : List Char → List Char → ℚ)
    (query : List Char) (chunks : List RetrievedChunk) (top_k : ℕ) :
    List RetrievedChunk :=
  if chunks.isEmpty then []
  else
    let rawScores := chunks.map (fun c => predict query c.content)
    let normalized := normalizeScores expF rawScores
    let updated := chunks.zipWith (fun c s => { c with relevance_score := s }) normalized
    (sortDesc (fun c => c.relevance_score) updated).take top_k

/-- `Retriever.retrieve`, from the point where the vector store has
returned `candidates`: empty candidates short-circuit to an empty result,
otherwise the candidates are reranked. -/
def retrieveChunks (expF : ℚ → ℚ) (predict : List Char → List Char → ℚ)
    (query : List Char) (candidates : List RetrievedChunk) (rerank_top_k : ℕ) :
    List RetrievedChunk :=
  if candidates.isEmpty then []
  else rerank expF predict query candidates rerank_top_k

/-- `doc_counts.get(doc_id, 0)` on the insertion-ordered dict, modelled as
an association list. -/
def getCount (m : List (List Char × ℕ)) (k : List Char) : ℕ :=
  (m.lookup k).getD 0

/-- `doc_counts[doc_id] = doc_counts.get(doc_id, 0) + 1`. -/
def incrCount (m : List (List Char × ℕ)) (k : List Char) : List (List Char × ℕ) :=
  match m with
  | [] => [(k, 1)]
  | (k', n) :: rest => if k' = k then (k', n + 1) :: rest else (k', n) :: incrCount rest k

/-- First pass of `Retriever._select_diverse_chunks`: take the best chunk
of each newly-seen document; break as soon as
`len(doc_counts) >= min_docs and len(selected) >= target_count`. -/
def diversePass1 (min_docs target_count : ℕ) :
    List RetrievedChunk → List RetrievedChunk → List (List Char × ℕ) →
    List RetrievedChunk × List (List Char × ℕ)
  | [], selected, m => (selected, m)
  | c :: rest, selected, m =>
    if (m.lookup c.document_id).isSome then
      diversePass1 min_docs target_count rest selected m
    else
      let selected' := selected ++ [c]
      let m' := m ++ [(c.document_id, 1)]
      if min_docs ≤ m'.length ∧ target_count ≤ selected'.length then (selected', m')
      else diversePass1 min_docs target_count rest selected' m'

/-- Second pass of `Retriever._select_diverse_chunks`: fill remaining
slots in relevance order from any document under `max_per_doc`. -/
def diversePass2 (target_count max_per_doc : ℕ) :
    List RetrievedChunk → List RetrievedChunk → List (List Char × ℕ) →
    List RetrievedChunk
  | [], selected, _ => selected
  | c :: rest, selected, m =>
    if target_count ≤ selected.length then selected
    else if c ∈ selected then diversePass2 target_count max_per_doc rest selected m
    else if getCount m c.document_id < max_per_doc then
      diversePass2 target_count max_per_doc rest (selected ++ [c]) (incrCount m c.document_id)
    else diversePass2 target_count max_per_doc rest selected m

/-- `Retriever._select_diverse_chunks`. -/
def selectDiverseChunks (chunks : List RetrievedChunk)
    (target_count min_docs max_per_doc : ℕ) : List RetrievedChunk :=
  if chunks.isEmpty then []
  else
    let p1 := diversePass1 min_docs target_count chunks [] []
    let selected := diversePass2 target_count max_per_doc chunks p1.1 p1.2
    sortDesc (fun c => c.relevance_score) selected

/-- How many chunks of `sel` come from document `d`. -/
def countDoc (sel : List RetrievedChunk) (d : List Char) : ℕ :=
  (sel.filter (fun c => decide (c.document_id = d))).length

/-- The first chunk of each document not yet in `seen`, in list order (the
chunks the first pass of `_select_diverse_chunks` considers). -/
def firstOccsAux : List RetrievedChunk → List (List Char) → List RetrievedChunk
  | [], _ => []
  | c :: rest, seen =>
    if c.document_id ∈ seen then firstOccsAux rest seen
    else c :: firstOccsAux rest (c.document_id :: seen)

/-- The first pass as the specification words it: break as soon as
`min_docs` documents are represented **or** `target_count` chunks are
selected (the code breaks only when both hold). -/
def claimPass1 (min_docs target_count : ℕ) :
    List RetrievedChunk → List RetrievedChunk → List (List Char × ℕ) →
    List RetrievedChunk × List (List Char × ℕ)
  | [], selected, m => (selected, m)
  | c :: rest, selected, m =>
    if (m.lookup c.document_id).isSome then
      claimPass1 min_docs target_count rest selected m
    else
      let selected' := selected ++ [c]
      let m' := m ++ [(c.document_id, 1)]
      if min_docs ≤ m'.length ∨ target_count ≤ selected'.length then (selected', m')
      else claimPass1 min_docs target_count rest selected' m'

/-- `_select_diverse_chunks` as the specification words it: identical to
`selectDiverseChunks` except that the first pass stops on either
condition. -/
def selectDiverseClaimed (chunks : List RetrievedChunk)
    (target_count min_docs max_per_doc : ℕ) : List RetrievedChunk :=
  if chunks.isEmpty then []
  else
    let p1 := claimPass1 min_docs target_count chunks [] []
    let selected := diversePass2 target_count max_per_doc chunks p1.1 p1.2
    sortDesc (fun c => c.relevance_score) selected

/-- `Retriever.retrieve_from_multiple_documents`, from the point where the
vector store has returned `candidates`: rerank the entire candidate set,
then select with document diversity. -/
def retrieveMultiChunks (expF : ℚ → ℚ) (predict : List Char → List Char → ℚ)
    (query : List Char) (candidates : List RetrievedChunk)
    (rerank_top_k min_docs max_chunks_per_doc : ℕ) : List RetrievedChunk :=
  if candidates.isEmpty then []
  else
    let ranked := rerank expF predict query candidates candidates.length
    selectDiverseChunks ranked rerank_top_k min_docs max_chunks_per_doc

/-! ## Generator (`src/services/generator.py`, models in
`src/models/response.py`) -/

instance : Inhabited RetrievedChunk :=
  ⟨⟨[], [], [], [], 0, none, 0, false, 0, 0⟩⟩

/-- `Citation` (`src/models/response.py`). -/
structure Citation where
  document_name : List Char
  page_number : ℕ
  verbatim_quote : List Char
  relevance_score : ℚ
  deriving DecidableEq, Repr

/-- One entry of the `citations` array of the structured LLM output:
`{"source_index": …, "verbatim_quote": …}` (missing keys modelled by the
Python defaults `0` and `""` the code supplies via `.get`). -/
structure LlmCitation where
  source_index : ℤ
  verbatim_quote : List Char
  deriving DecidableEq, Repr

/-- `Generator._validate_quote`: exact case-insensitive substring match,
else distinct-word overlap ratio `≥ 0.8`. -/
def validateQuote (quote content : List Char) : Bool :=
  if quote = [] ∨ content = [] then false
  else
    let quote_lower := pyStrip (pyLower quote)
    let content_lower := pyLower content
    if containsSeq quote_lower content_lower then true
    else
      let quote_words := (pyWords quote_lower).dedup
      let content_words := pyWords content_lower
      let overlap := quote_words.filter (fun w => w ∈ content_words)
      if 0 < quote_words.length then
        decide ((4 : ℚ) / 5 ≤ (overlap.length : ℚ) / (quote_words.length : ℚ))
      else false

theorem ratio_iff {a b : ℕ} (hb : 0 < b) :
    (4:ℚ)/5 ≤ (a:ℚ)/(b:ℚ) ↔ 4 * b ≤ 5 * a := by
  rw [div_le_div_iff₀ (by norm_num) (by exact_mod_cast hb)]
  constructor
  · intro h
    have h' : 4 * b ≤ a * 5 := by exact_mod_cast h
    omega
  · intro h
    have h' : 4 * b ≤ a * 5 := by omega
    exact_mod_cast h'

/-- The overlap-ratio test of `_validate_quote`, restated over `ℕ`
(`ratio ≥ 0.8  ↔  4·|quote_words| ≤ 5·|overlap|`); this form evaluates by
`decide`. -/
theorem validateQuote_eq (quote content : List Char) :
    validateQuote quote content =
      (if quote = [] ∨ content = [] then false
       else if containsSeq (pyStrip (pyLower quote)) (pyLower content) then true
       else
         let quote_words := (pyWords (pyStrip (pyLower quote))).dedup
         let overlap := quote_words.filter (fun w => w ∈ pyWords (pyLower content))
         if 0 < quote_words.length then
           decide (4 * quote_words.length ≤ 5 * overlap.length)
         else false) := by
  simp only [validateQuote]
  split_ifs with h1 h2 h3
  · rfl
  · rfl
  · exact decide_eq_decide.mpr (ratio_iff h3)
  · rfl

/-- Distinct-word overlap between a quote and a sentence
(`len(quote_words & sentence_words)` in `_find_similar_quote`). -/
def wordOverlap (qwords : List (List Char)) (sentence : List Char) : ℕ :=
  (qwords.filter (fun w => w ∈ pyWords (pyLower sentence))).length

/-- The best-scoring sentence scan of `Generator._find_similar_quote`:
keeps the first sentence with strictly more overlap than any before. -/
def bestSentence (qwords : List (List Char)) :
    List (List Char) → List Char × ℕ → List Char × ℕ
  | [], acc => acc
  | s :: rest, (b, sc) =>
    if sc < wordOverlap qwords s then
      bestSentence qwords rest (pyStrip s, wordOverlap qwords s)
    else bestSentence qwords rest (b, sc)

/-- `Generator._find_similar_quote`. -/
def findSimilarQuote (quote content : List Char) (max_len : ℕ := 200) : List Char :=
  if content = [] then quote
  else
    let sentences := split2 '.' ' ' (pyNlToSpace content)
    let qwords := (pyWords (pyLower quote)).dedup
    let best := (bestSentence qwords sentences ([], 0)).1
    if best ≠ [] then
      if max_len < best.length then best.take max_len ++ ['.', '.', '.'] else best
    else
      if max_len < quote.length then quote.take max_len else quote

/-- The first-substantial-sentence scan of `Generator._extract_best_quote`. -/
def firstLongSentence (max_len : ℕ) : List (List Char) → Option (List Char)
  | [] => none
  | s :: rest =>
    let s := pyStrip s
    if 50 ≤ s.length then
      some (if max_len < s.length then s.take max_len ++ ['.', '.', '.'] else s)
    else firstLongSentence max_len rest

/-- `Generator._extract_best_quote`. -/
def extractBestQuote (content : List Char) (max_len : ℕ := 200) : List Char :=
  if content = [] then []
  else
    match firstLongSentence max_len (split2 '.' ' ' (pyNlToSpace content)) with
    | some s => s
    | none =>
      if max_len < content.length then content.take max_len ++ ['.', '.', '.']
      else content

/-- Build the `Citation` the loop of `_extract_citations` appends. -/
def mkCitation (chunk : RetrievedChunk) (quote : List Char) : Citation :=
  ⟨chunk.document_name, chunk.page_number, quote, chunk.relevance_score⟩

/-- The main loop of `Generator._extract_citations`: resolve the 1-based
`source_index`, drop out-of-range indices and duplicate quotes, validate
the quote (substituting a similar passage on failure), count verified
quotes. -/
def extractLoop (chunks : List RetrievedChunk) :
    List LlmCitation → List (List Char) → List Citation × ℕ
  | [], _ => ([], 0)
  | cit :: rest, seen =>
    let idx := cit.source_index - 1
    if idx < 0 ∨ (chunks.length : ℤ) ≤ idx then extractLoop chunks rest seen
    else
      let chunk := chunks.getD idx.toNat default
      let quote := cit.verbatim_quote
      if quote ∈ seen then extractLoop chunks rest seen
      else
        let seen' := quote :: seen
        if quote ≠ [] then
          if validateQuote quote chunk.content then
            let r := extractLoop chunks rest seen'
            (mkCitation chunk quote :: r.1, r.2 + 1)
          else
            let r := extractLoop chunks rest seen'
            (mkCitation chunk (findSimilarQuote quote chunk.content) :: r.1, r.2)
        else
          let r := extractLoop chunks rest seen'
          (mkCitation chunk quote :: r.1, r.2)

/-- The chunk a 1-based `source_index` resolves to. -/
def chunkOf (chunks : List RetrievedChunk) (cit : LlmCitation) : RetrievedChunk :=
  chunks.getD (cit.source_index - 1).toNat default

/-- The in-range test of `_extract_citations`
(`not (source_index0 < 0 or source_index0 >= len(chunks))`). -/
def inRangeB (chunks : List RetrievedChunk) (cit : LlmCitation) : Bool :=
  !(decide (cit.source_index - 1 < 0) ||
    decide ((chunks.length : ℤ) ≤ cit.source_index - 1))

/-- The quote a kept citation ends up with: kept verbatim when empty or
validated, else replaced by `_find_similar_quote`'s pick. -/
def processQuote (chunk : RetrievedChunk) (q : List Char) : List Char :=
  if q = [] then q
  else if validateQuote q chunk.content then q
  else findSimilarQuote q chunk.content

/-- `Generator._extract_citations`: the loop, then the synthesized-citation
fallback from the top 3 chunks when the LLM provided no usable citation. -/
def extractCitations (llmCits : List LlmCitation) (chunks : List RetrievedChunk) :
    List Citation × ℕ :=
  let r := extractLoop chunks llmCits []
  if r.1 = [] ∧ ¬ chunks = [] then
    let fallback := (chunks.take 3).map
      (fun chunk => mkCitation chunk (extractBestQuote chunk.content))
    (fallback, r.2 + fallback.length)
  else r

/-- `Generator._calculate_confidence`. -/
def calcConfidence (chunks : List RetrievedChunk) (citations : List Citation) : ℚ :=
  if chunks = [] ∨ citations = [] then 0
  else
    let citation_scores :=
      (citations.map (fun c => c.relevance_score)).filter (fun s => 0 < s)
    let citation_scores :=
      if citation_scores = [] then
        (chunks.take citations.length).map (fun c => c.relevance_score)
      else citation_scores
    if citation_scores = [] then 0
    else
      let avg_score := citation_scores.sum / (citation_scores.length : ℚ)
      let source_bonus := min ((citations.length : ℚ) * (2/100)) (1/10)
      let variance_penalty :=
        if 1 < citation_scores.length then
          min (((citation_scores.map (fun s => (s - avg_score) ^ 2)).sum /
                (citation_scores.length : ℚ)) * (1/2)) (1/10)
        else 0
      let confidence := avg_score + source_bonus - variance_penalty
      max 0 (min 1 (pyRound 2 confidence))

/-- The structured LLM output `{answer, citations, not_found}` the
generator works with. -/
structure LlmResponse where
  answer : List Char
  citations : List LlmCitation
  not_found : Bool
  deriving Repr

/-- `ResponseMetadata` (`src/models/response.py`). -/
structure ResponseMetadata where
  chunks_retrieved : ℕ
  chunks_used : ℕ
  processing_time_ms : ℕ
  confidence_score : ℚ := 0
  quotes_verified : ℕ := 0
  deriving DecidableEq, Repr

/-- `Response` (`src/models/response.py`). -/
structure Response where
  answer : List Char
  citations : List Citation
  query_text : List Char
  metadata : ResponseMetadata
  not_found : Bool
  deriving DecidableEq, Repr

/-- `Response.not_found_response`: the canonical not-found response. -/
def notFoundResponse (query_text : List Char) (chunks_retrieved : ℕ)
    (processing_time_ms : ℕ) : Response where
  answer := "No relevant information found in the indexed documents.".toList
  citations := []
  query_text := query_text
  metadata :=
    { chunks_retrieved := chunks_retrieved
      chunks_used := 0
      processing_time_ms := processing_time_ms }
  not_found := true

/-- The code-fence stripping of `Generator._generate_aggregated_response`:
outer whitespace, then a leading ```` ```json ```` or ```` ``` ````, then a
trailing ```` ``` ````. (The value of the Python variable `response` at the
moment `json.loads` is attempted, before the final `.strip()`.) -/
def stripFences (text : List Char) : List Char :=
  let r1 := pyStrip text
  let r2 := if leadsWith "```json".toList r1 then r1.drop 7 else r1
  let r3 := if leadsWith "```".toList r2 then r2.drop 3 else r2
  if leadsWith "```".toList.reverse r3.reverse then r3.take (r3.length - 3) else r3

/-- `Generator._generate_aggregated_response`, from the point where the
chat collaborator returned `text`: strip code fences, parse
(`jsonParse` models `json.loads`, `none` = `JSONDecodeError`), degrade to
the fence-stripped raw text on parse failure. Total by construction: no
exception escapes. -/
def parseAggregated (jsonParse : List Char → Option LlmResponse)
    (text : List Char) : LlmResponse :=
  match jsonParse (pyStrip (stripFences text)) with
  | some r => r
  | none => ⟨stripFences text, [], false⟩

/-- `Generator.generate`, with the LLM strategy call (standard or
aggregated) abstracted as `llmCall` and wall-clock durations as
arguments. -/
def generate (llmCall : List Char → List RetrievedChunk → LlmResponse)
    (query : List Char) (rrChunks : List RetrievedChunk) (total_retrieved : ℕ)
    (retrieval_time_ms generation_time_ms : ℕ) (max_sources : ℕ := 5) : Response :=
  let chunks := rrChunks.take max_sources
  if chunks = [] then
    notFoundResponse query total_retrieved (retrieval_time_ms + generation_time_ms)
  else
    let llm := llmCall query chunks
    if llm.not_found then
      notFoundResponse query total_retrieved (retrieval_time_ms + generation_time_ms)
    else
      let r := extractCitations llm.citations chunks
      { answer := llm.answer
        citations := r.1
        query_text := query
        metadata :=
          { chunks_retrieved := total_retrieved
            chunks_used := r.1.length
            processing_time_ms := retrieval_time_ms + generation_time_ms
            confidence_score := calcConfidence chunks r.1
            quotes_verified := r.2 }
        not_found := false }

/-! ## Chunker (`src/services/chunker.py`, model in `src/models/chunk.py`)

`Chunk.id` (a fresh UUID) is omitted: it is external randomness and no
claim mentions it. -/

/-- `ChunkMetadata` (`src/models/chunk.py`). -/
structure ChunkMeta where
  has_table : Bool := false
  section_title : Option (List Char) := none
  extraction_method : List Char := "text".toList
  deriving DecidableEq, Repr

/-- `Chunk` (`src/models/chunk.py`), without the random `id`. -/
structure Chunk where
  document_id : List Char
  document_name : List Char
  content : List Char
  page_number : ℕ
  page_end : Option ℕ := none
  chunk_index : ℕ
  token_count : ℕ := 0
  embedding : Option (List ℚ) := none
  metadata : ChunkMeta
  deriving DecidableEq, Repr

/-- A page as handed to `Chunker.chunk_pages`; `combined_content` is the
`ExtractedPage.combined_content` property (external PDF extraction). -/
structure ExtractedPage where
  page_number : ℕ
  combined_content : List Char
  deriving DecidableEq, Repr

/-- One segment of the structured `chunk_text` collaborator output. -/
structure LlmChunkData where
  content : List Char
  has_table : Bool := false
  section_title : Option (List Char) := none
  deriving DecidableEq, Repr

/-- The chunk `Chunker._fallback_chunk` appends: content is the stripped
accumulator, `has_table` is tested on the unstripped accumulator. -/
def fbChunk (document_id document_name : List Char) (page_number : ℕ)
    (cur : List Char) (idx : ℕ) : Chunk where
  document_id := document_id
  document_name := document_name
  content := pyStrip cur
  page_number := page_number
  chunk_index := idx
  metadata := { has_table := containsSeq "[Table]".toList cur }

/-- The paragraph-accumulation loop of `Chunker._fallback_chunk`. -/
def fallbackLoop (document_id document_name : List Char) (page_number : ℕ) :
    List (List Char) → List Char → ℕ → List Chunk
  | [], cur, idx =>
    if ¬ cur = [] ∧ 50 ≤ cur.length then
      [fbChunk document_id document_name page_number cur idx]
    else []
  | para :: rest, cur, idx =>
    let p := pyStrip para
    if p = [] then fallbackLoop document_id document_name page_number rest cur idx
    else if ¬ cur = [] ∧ 2000 < cur.length + p.length then
      if 50 ≤ cur.length then
        fbChunk document_id document_name page_number cur idx ::
          fallbackLoop document_id document_name page_number rest p (idx + 1)
      else fallbackLoop document_id document_name page_number rest p idx
    else
      fallbackLoop document_id document_name page_number rest
        (if cur = [] then p else cur ++ '\n' :: '\n' :: p) idx

/-- `Chunker._fallback_chunk`: split on blank lines, accumulate up to
2,000 characters, keep accumulations of at least 50 characters. -/
def fallbackChunk (text : List Char) (page_number : ℕ)
    (document_id document_name : List Char) (start_chunk_index : ℕ) : List Chunk :=
  fallbackLoop document_id document_name page_number
    (split2 '\n' '\n' text) [] start_chunk_index

/-- `Chunker._chunk_text`: model-assisted chunking for short pages
(`llm` models the `chunk_text` collaborator, `none` = exception), with
fallback on exception, oversized input, or no usable segment. -/
def chunkText (llm : List Char → Option (List LlmChunkData)) (text : List Char)
    (page_number : ℕ) (document_id document_name : List Char)
    (start_chunk_index : ℕ) : List Chunk :=
  if text.length ≤ 12000 then
    match llm text with
    | some llmChunks =>
      let kept := llmChunks.enum.filterMap (fun p =>
        let content := pyStrip p.2.content
        if 50 ≤ content.length then
          some ({ document_id := document_id
                  document_name := document_name
                  content := content
                  page_number := page_number
                  chunk_index := start_chunk_index + p.1
                  metadata :=
                    { has_table := p.2.has_table
                      section_title := p.2.section_title } } : Chunk)
        else none)
      if ¬ kept = [] then kept
      else fallbackChunk text page_number document_id document_name start_chunk_index
    | none => fallbackChunk text page_number document_id document_name start_chunk_index
  else fallbackChunk text page_number document_id document_name start_chunk_index

/-- The sentence-terminator scan of `Chunker._split_oversized_chunk`: the
first separator among `". ", ".\n", "? ", "!\n"` whose last occurrence in
the first 24,000 characters is past the midpoint wins. -/
def sentSplitScan (content : List Char) : List (List Char) → ℕ
  | [] => 24000
  | sep :: rest =>
    match pyRfind sep content 24000 with
    | some p => if 12000 < p then p + sep.length else sentSplitScan content rest
    | none => sentSplitScan content rest

/-- The split-point choice of `Chunker._split_oversized_chunk`: last
paragraph break past the midpoint, else last sentence terminator past the
midpoint, else a hard cut at 24,000. -/
def computeSplitPoint (content : List Char) : ℕ :=
  match pyRfind ['\n', '\n'] content 24000 with
  | some p =>
    if 12000 < p then p
    else sentSplitScan content [['.', ' '], ['.', '\n'], ['?', ' '], ['!', '\n']]
  | none => sentSplitScan content [['.', ' '], ['.', '\n'], ['?', ' '], ['!', '\n']]

theorem lt_computeSplitPoint (content : List Char) : 12000 < computeSplitPoint content := by
  have hscan : ∀ seps, 12000 < sentSplitScan content seps := by
    intro seps
    induction seps with
    | nil => simp [sentSplitScan]
    | cons sep rest ih =>
      rw [sentSplitScan]
      cases pyRfind sep content 24000 with
      | none => exact ih
      | some p =>
        by_cases hp : 12000 < p
        · simpa [hp] using Nat.lt_of_lt_of_le hp (Nat.le_add_right p sep.length)
        · simpa [hp] using ih
  unfold computeSplitPoint
  cases pyRfind ['\n', '\n'] content 24000 with
  | none => exact hscan _
  | some p =>
    by_cases hp : 12000 < p
    · simp [hp]
    · simpa [hp] using hscan _

theorem length_pyStrip_le (l : List Char) : (pyStrip l).length ≤ l.length := by
  unfold pyStrip
  calc ((l.dropWhile pyIsSpace).reverse.dropWhile pyIsSpace).reverse.length
      = ((l.dropWhile pyIsSpace).reverse.dropWhile pyIsSpace).length := by
        rw [List.length_reverse]
    _ ≤ (l.dropWhile pyIsSpace).reverse.length :=
        (List.dropWhile_sublist _).length_le
    _ = (l.dropWhile pyIsSpace).length := by rw [List.length_reverse]
    _ ≤ l.length := (List.dropWhile_sublist _).length_le

/-- The sub-chunk `_split_oversized_chunk` creates for a piece: inherits
page and metadata, offsets `chunk_index`, drops `page_end`. -/
def subChunk (c : Chunk) (piece : List Char) (k : ℕ) : Chunk where
  document_id := c.document_id
  document_name := c.document_name
  content := piece
  page_number := c.page_number
  chunk_index := c.chunk_index + k
  metadata := c.metadata

/-- The `while content:` loop of `Chunker._split_oversized_chunk`; `k`
counts the pieces kept so far (the code increments `chunk_idx` only when
a piece is appended). -/
def splitLoop (c : Chunk) (content : List Char) (k : ℕ) : List Chunk :=
  if content = [] then []
  else if content.length ≤ 24000 then
    if ¬ content = [] ∧ 50 ≤ content.length then [subChunk c content k] else []
  else
    if ¬ pyStrip (content.take (computeSplitPoint content)) = [] ∧
        50 ≤ (pyStrip (content.take (computeSplitPoint content))).length then
      subChunk c (pyStrip (content.take (computeSplitPoint content))) k ::
        splitLoop c (pyStrip (content.drop (computeSplitPoint content))) (k + 1)
    else splitLoop c (pyStrip (content.drop (computeSplitPoint content))) k
  termination_by content.length
  decreasing_by
  all_goals
    refine Nat.lt_of_le_of_lt (length_pyStrip_le _) ?_
    rw [List.length_drop]
    have h12 := lt_computeSplitPoint content
    omega

/-- The piece decomposition `_split_oversized_chunk` computes, before the
50-character filter drops pieces. -/
def rawSplitPieces (content : List Char) : List (List Char) :=
  if content = [] then []
  else if content.length ≤ 24000 then [content]
  else
    pyStrip (content.take (computeSplitPoint content)) ::
      rawSplitPieces (pyStrip (content.drop (computeSplitPoint content)))
  termination_by content.length
  decreasing_by
    refine Nat.lt_of_le_of_lt (length_pyStrip_le _) ?_
    rw [List.length_drop]
    have h12 := lt_computeSplitPoint content
    omega

/-- `Chunker._split_oversized_chunk`. -/
def splitOversized (c : Chunk) : List Chunk :=
  if c.content.length ≤ 24000 then [c]
  else if splitLoop c c.content 0 = [] then [c]
  else splitLoop c c.content 0

/-- `Chunker._add_embeddings`: re-split oversized chunks, then embed
(`embed` models the batched embedding collaborator; batches of 50 in
original order concatenate to a plain map) and set `token_count`. -/
def addEmbeddings (embed : List Char → List ℚ) (chunks : List Chunk) : List Chunk :=
  if chunks = [] then chunks
  else
    (chunks.flatMap splitOversized).map
      (fun c => { c with
        embedding := some (embed c.content)
        token_count := c.content.length / 4 })

/-- The per-page loop of `Chunker.chunk_pages`: skip empty or sub-50
pages, chunk the rest, advance the running `chunk_index` by the number of
chunks the page produced. -/
def pagesLoop (llm : List Char → Option (List LlmChunkData))
    (document_id document_name : List Char) :
    List ExtractedPage → ℕ → List Chunk
  | [], _ => []
  | page :: rest, idx =>
    let content := page.combined_content
    if content = [] ∨ (pyStrip content).length < 50 then
      pagesLoop llm document_id document_name rest idx
    else
      let pcs := chunkText llm content page.page_number document_id document_name idx
      pcs ++ pagesLoop llm document_id document_name rest (idx + pcs.length)

/-- `Chunker.chunk_pages`. -/
def chunkPages (llm : List Char → Option (List LlmChunkData))
    (embed : List Char → List ℚ) (pages : List ExtractedPage)
    (document_id document_name : List Char) : List Chunk :=
  if pagesLoop llm document_id document_name pages 0 = [] then []
  else addEmbeddings embed (pagesLoop llm document_id document_name pages 0)

/-! ## Claim theorems -/

theorem relevance_mem_zipWith {chunks : List RetrievedChunk} {scores : List ℚ}
    {c : RetrievedChunk}
    (h : c ∈ List.zipWith (fun c s => { c with relevance_score := s }) chunks scores) :
    c.relevance_score ∈ scores := by
  induction chunks generalizing scores with
  | nil => simp at h
  | cons x xs ih =>
    cases scores with
    | nil => simp at h
    | cons s ss =>
      rcases List.mem_cons.mp h with h | h
      · subst h; exact List.mem_cons_self _ _
      · exact List.mem_cons_of_mem _ (ih h)

theorem lookup_isSome_iff {m : List (List Char × ℕ)} {d : List Char} :
    ((m.lookup d).isSome = true) ↔ d ∈ m.map Prod.fst := by
  induction m with
  | nil => simp
  | cons p rest ih =>
    obtain ⟨k, v⟩ := p
    rw [List.lookup_cons]
    cases hdk : d == k with
    | true => simp [eq_of_beq hdk]
    | false => simp [ih, ne_of_beq_false hdk]

theorem keys_map_doc (sel : List RetrievedChunk) :
    (sel.map (fun c => (c.document_id, (1:ℕ)))).map Prod.fst =
      sel.map (fun c => c.document_id) := by
  rw [List.map_map]
  rfl

theorem firstOccsAux_congr :
    ∀ (chunks : List RetrievedChunk) (s₁ s₂ : List (List Char)),
    (∀ d, d ∈ s₁ ↔ d ∈ s₂) → firstOccsAux chunks s₁ = firstOccsAux chunks s₂ := by
  intro chunks
  induction chunks with
  | nil => intro s₁ s₂ _; rfl
  | cons c rest ih =>
    intro s₁ s₂ h
    rw [firstOccsAux, firstOccsAux]
    by_cases hc : c.document_id ∈ s₁
    · rw [if_pos hc, if_pos ((h _).mp hc), ih _ _ h]
    · rw [if_neg hc, if_neg (fun hx => hc ((h _).mpr hx))]
      have : ∀ d, d ∈ c.document_id :: s₁ ↔ d ∈ c.document_id :: s₂ := by
        intro d
        simp [h d]
      rw [ih _ _ this]

theorem firstOccsAux_docs :
    ∀ (chunks : List RetrievedChunk) (seen : List (List Char)),
    ((firstOccsAux chunks seen).map (fun c => c.document_id)).Nodup ∧
    ∀ d ∈ (firstOccsAux chunks seen).map (fun c => c.document_id), d ∉ seen := by
  intro chunks
  induction chunks with
  | nil => intro seen; simp [firstOccsAux]
  | cons c rest ih =>
    intro seen
    rw [firstOccsAux]
    by_cases hc : c.document_id ∈ seen
    · rw [if_pos hc]; exact ih seen
    · rw [if_neg hc]
      obtain ⟨hnd, hout⟩ := ih (c.document_id :: seen)
      refine ⟨?_, ?_⟩
      · rw [List.map_cons, List.nodup_cons]
        exact ⟨fun hmem => (hout _ hmem) (List.mem_cons_self _ _), hnd⟩
      · intro d hd
        rcases List.mem_cons.mp hd with hd | hd
        · exact hd ▸ hc
        · exact fun hds => (hout d hd) (List.mem_cons_of_mem _ hds)

theorem firstOccsAux_coverage :
    ∀ (chunks : List RetrievedChunk) (seen : List (List Char)),
    ∀ c ∈ chunks, c.document_id ∈ seen ∨
      c.document_id ∈ (firstOccsAux chunks seen).map (fun c => c.document_id) := by
  intro chunks
  induction chunks with
  | nil => intro seen c hc; simp at hc
  | cons x rest ih =>
    intro seen c hc
    rw [firstOccsAux]
    by_cases hx : x.document_id ∈ seen
    · rw [if_pos hx]
      rcases List.mem_cons.mp hc with hc | hc
      · exact Or.inl (hc ▸ hx)
      · exact ih seen c hc
    · rw [if_neg hx, List.map_cons]
      rcases List.mem_cons.mp hc with hc | hc
      · exact Or.inr (hc ▸ List.mem_cons_self _ _)
      · rcases ih (x.document_id :: seen) c hc with h | h
        · rcases List.mem_cons.mp h with h | h
          · exact Or.inr (h ▸ List.mem_cons_self _ _)
          · exact Or.inl h
        · exact Or.inr (List.mem_cons_of_mem _ h)

/-- The first pass of `_select_diverse_chunks`, characterized: starting
from a selection whose per-document map mirrors it, it extends the
selection with the first occurrence of each new document, stopping at
`max 1 (max min_docs target_count)` selected chunks (the `and` in the
code's break makes the two thresholds combine as a `max`). -/
theorem pass1_char (md tc : ℕ) :
    ∀ (chunks selected : List RetrievedChunk),
    selected.length < max 1 (max md tc) →
    diversePass1 md tc chunks selected (selected.map (fun c => (c.document_id, 1))) =
      (selected ++ (firstOccsAux chunks (selected.map (fun c => c.document_id))).take
          (max 1 (max md tc) - selected.length),
        (selected ++ (firstOccsAux chunks (selected.map (fun c => c.document_id))).take
          (max 1 (max md tc) - selected.length)).map (fun c => (c.document_id, 1))) := by
  intro chunks
  induction chunks with
  | nil =>
    intro selected hlen
    simp [diversePass1, firstOccsAux]
  | cons c rest ih =>
    intro selected hlen
    rw [diversePass1, firstOccsAux]
    by_cases hmem : c.document_id ∈ selected.map (fun c => c.document_id)
    · have hl : (((selected.map (fun c => (c.document_id, 1))).lookup
          c.document_id).isSome = true) := by
        rw [lookup_isSome_iff, keys_map_doc]
        exact hmem
      rw [if_pos hl, if_pos hmem]
      exact ih selected hlen
    · have hl : ¬ (((selected.map (fun c => (c.document_id, 1))).lookup
          c.document_id).isSome = true) := by
        rw [lookup_isSome_iff, keys_map_doc]
        exact hmem
      rw [if_neg hl, if_neg hmem]
      have hm' : selected.map (fun c : RetrievedChunk => (c.document_id, (1:ℕ))) ++
          [(c.document_id, 1)] =
          (selected ++ [c]).map (fun c => (c.document_id, 1)) := by
        simp
      have hlen' : (selected.map (fun c : RetrievedChunk => (c.document_id, (1:ℕ))) ++
          [(c.document_id, 1)]).length = selected.length + 1 := by simp
      have hlen'' : (selected ++ [c]).length = selected.length + 1 := by simp
      by_cases hbreak : md ≤ (selected.map (fun c : RetrievedChunk => (c.document_id, (1:ℕ))) ++
          [(c.document_id, 1)]).length ∧ tc ≤ (selected ++ [c]).length
      · rw [if_pos hbreak]
        rw [hlen', hlen''] at hbreak
        have hK : max 1 (max md tc) = selected.length + 1 := by omega
        rw [hK]
        have ht : selected.length + 1 - selected.length = 1 := by omega
        rw [ht, List.take_succ_cons, List.take_zero]
        rw [hm']
      · rw [if_neg hbreak]
        rw [hlen', hlen''] at hbreak
        have hlt : (selected ++ [c]).length < max 1 (max md tc) := by
          rw [hlen'']
          omega
        have hstep := ih (selected ++ [c]) hlt
        rw [hm', hstep]
        have hseen : firstOccsAux rest ((selected ++ [c]).map (fun c => c.document_id)) =
            firstOccsAux rest (c.document_id :: selected.map (fun c => c.document_id)) := by
          apply firstOccsAux_congr
          intro d
          simp [or_comm]
        have harith : max 1 (max md tc) - (selected ++ [c]).length =
            max 1 (max md tc) - selected.length - 1 := by
          rw [hlen'']
          omega
        have htake : (c :: firstOccsAux rest
            (c.document_id :: selected.map (fun c => c.document_id))).take
              (max 1 (max md tc) - selected.length) =
            c :: (firstOccsAux rest
              (c.document_id :: selected.map (fun c => c.document_id))).take
                (max 1 (max md tc) - selected.length - 1) := by
          have : max 1 (max md tc) - selected.length =
              (max 1 (max md tc) - selected.length - 1) + 1 := by omega
          rw [this, List.take_succ_cons, Nat.add_sub_cancel]
        rw [hseen, harith, htake]
        simp only [List.append_assoc, List.cons_append, List.nil_append]

theorem getCount_cons (k' : List Char) (v : ℕ) (m : List (List Char × ℕ))
    (d : List Char) :
    getCount ((k', v) :: m) d = if (d == k') = true then v else getCount m d := by
  rw [getCount, List.lookup_cons]
  cases h : d == k' <;> simp [h, getCount]

theorem getCount_incrCount_self (m : List (List Char × ℕ)) (k : List Char) :
    getCount (incrCount m k) k = getCount m k + 1 := by
  induction m with
  | nil => simp [incrCount, getCount, List.lookup]
  | cons p rest ih =>
    obtain ⟨k', v⟩ := p
    rw [incrCount]
    by_cases h : k' = k
    · subst h
      rw [if_pos rfl, getCount_cons, getCount_cons]
      simp
    · rw [if_neg h]
      have hbeq : (k == k') = false := by
        simp only [beq_eq_false_iff_ne, ne_eq]
        exact fun hx => h hx.symm
      rw [getCount_cons, getCount_cons, hbeq]
      simp [ih]

theorem getCount_incrCount_ne (m : List (List Char × ℕ)) (k d : List Char)
    (h : ¬ d = k) : getCount (incrCount m k) d = getCount m d := by
  induction m with
  | nil =>
    have hbeq : (d == k) = false := by simp [h]
    simp [incrCount, getCount, List.lookup, hbeq]
  | cons p rest ih =>
    obtain ⟨k', v⟩ := p
    rw [incrCount]
    by_cases hk : k' = k
    · subst hk
      have hbeq : (d == k') = false := by simp [h]
      rw [if_pos rfl, getCount_cons, getCount_cons, hbeq]
      simp
    · rw [if_neg hk, getCount_cons, getCount_cons]
      cases hbeq : d == k' <;> simp [ih]

theorem countDoc_cons (c : RetrievedChunk) (rest : List RetrievedChunk)
    (d : List Char) :
    countDoc (c :: rest) d =
      (if c.document_id = d then 1 else 0) + countDoc rest d := by
  unfold countDoc
  rw [List.filter_cons]
  by_cases h : c.document_id = d <;> simp [h, Nat.add_comm]

theorem countDoc_append (sel : List RetrievedChunk) (c : RetrievedChunk)
    (d : List Char) :
    countDoc (sel ++ [c]) d =
      countDoc sel d + (if c.document_id = d then 1 else 0) := by
  unfold countDoc
  rw [List.filter_append]
  by_cases h : c.document_id = d <;> simp [h]

theorem countDoc_eq_zero (sel : List RetrievedChunk) (d : List Char)
    (h : d ∉ sel.map (fun c => c.document_id)) : countDoc sel d = 0 := by
  unfold countDoc
  rw [List.length_eq_zero, List.filter_eq_nil_iff]
  intro c hc
  simp only [decide_eq_true_eq]
  intro hcd
  exact h (List.mem_map.mpr ⟨c, hc, hcd⟩)

theorem countDoc_of_nodup (sel : List RetrievedChunk)
    (hnd : (sel.map (fun c => c.document_id)).Nodup) (d : List Char) :
    countDoc sel d = getCount (sel.map (fun c => (c.document_id, 1))) d := by
  induction sel with
  | nil => simp [countDoc, getCount, List.lookup]
  | cons c rest ih =>
    rw [List.map_cons, List.nodup_cons] at hnd
    rw [countDoc_cons, List.map_cons, getCount_cons]
    by_cases h : c.document_id = d
    · subst h
      have h0 : countDoc rest c.document_id = 0 := countDoc_eq_zero rest _ hnd.1
      simp [h0]
    · have hbeq : (d == c.document_id) = false := by
        simp only [beq_eq_false_iff_ne, ne_eq]
        exact fun hx => h hx.symm
      rw [hbeq]
      simp [h, ih hnd.2]

theorem countDoc_le_one_of_nodup (sel : List RetrievedChunk)
    (hnd : (sel.map (fun c => c.document_id)).Nodup) (d : List Char) :
    countDoc sel d ≤ 1 := by
  induction sel with
  | nil => simp [countDoc]
  | cons c rest ih =>
    rw [List.map_cons, List.nodup_cons] at hnd
    rw [countDoc_cons]
    by_cases h : c.document_id = d
    · subst h
      have h0 : countDoc rest c.document_id = 0 := countDoc_eq_zero rest _ hnd.1
      simp [h0]
    · simp only [h, if_false]
      simpa using ih hnd.2

/-- The second pass of `_select_diverse_chunks` keeps every already
selected chunk and never pushes a document beyond
`max 1 max_per_doc` chunks, provided the per-document map mirrors the
selection on entry. -/
theorem pass2_invariant (tc mpd : ℕ) :
    ∀ (chunks selected : List RetrievedChunk) (m : List (List Char × ℕ)),
    (∀ d, countDoc selected d = getCount m d) →
    (∀ d, getCount m d ≤ max 1 mpd) →
    (∀ d, countDoc (diversePass2 tc mpd chunks selected m) d ≤ max 1 mpd) ∧
    (∀ x ∈ selected, x ∈ diversePass2 tc mpd chunks selected m) := by
  intro chunks
  induction chunks with
  | nil =>
    intro selected m hsync hbound
    rw [diversePass2]
    exact ⟨fun d => (hsync d) ▸ hbound d, fun x hx => hx⟩
  | cons c rest ih =>
    intro selected m hsync hbound
    rw [diversePass2]
    by_cases h1 : tc ≤ selected.length
    · rw [if_pos h1]
      exact ⟨fun d => (hsync d) ▸ hbound d, fun x hx => hx⟩
    · rw [if_neg h1]
      by_cases h2 : c ∈ selected
      · rw [if_pos h2]
        exact ih selected m hsync hbound
      · rw [if_neg h2]
        by_cases h3 : getCount m c.document_id < mpd
        · rw [if_pos h3]
          have hsync' : ∀ d, countDoc (selected ++ [c]) d =
              getCount (incrCount m c.document_id) d := by
            intro d
            rw [countDoc_append]
            by_cases hd : c.document_id = d
            · subst hd
              rw [getCount_incrCount_self, hsync, if_pos rfl]
            · rw [getCount_incrCount_ne _ _ _ (fun he => hd he.symm), hsync,
                if_neg hd]
              omega
          have hbound' : ∀ d, getCount (incrCount m c.document_id) d ≤ max 1 mpd := by
            intro d
            by_cases hd : d = c.document_id
            · subst hd
              rw [getCount_incrCount_self]
              omega
            · rw [getCount_incrCount_ne _ _ _ hd]
              exact hbound d
          obtain ⟨hb, hmem⟩ := ih (selected ++ [c]) _ hsync' hbound'
          exact ⟨hb, fun x hx => hmem x (List.mem_append_left _ hx)⟩
        · rw [if_neg h3]
          exact ih selected m hsync hbound

theorem dedup_length_le_of_subset {α : Type} [DecidableEq α] {l₁ l₂ : List α}
    (h : ∀ x ∈ l₁, x ∈ l₂) : l₁.dedup.length ≤ l₂.dedup.length := by
  rw [← List.card_toFinset, ← List.card_toFinset]
  exact Finset.card_le_card
    (fun x hx => List.mem_toFinset.mpr (h x (List.mem_toFinset.mp hx)))

theorem countDoc_perm {l₁ l₂ : List RetrievedChunk} (h : l₁.Perm l₂)
    (d : List Char) : countDoc l₁ d = countDoc l₂ d :=
  (h.filter _).length_eq

theorem dedup_docs_perm {l₁ l₂ : List RetrievedChunk} (h : l₁.Perm l₂) :
    (l₁.map (fun c => c.document_id)).dedup.length =
      (l₂.map (fun c => c.document_id)).dedup.length :=
  ((h.map _).dedup).length_eq

/-- The per-document cap and the document-coverage floor of
`_select_diverse_chunks`. -/
theorem selectDiverse_guarantees (chunks : List RetrievedChunk)
    (tc md mpd : ℕ) (hmpd : 1 ≤ mpd) :
    (∀ d, countDoc (selectDiverseChunks chunks tc md mpd) d ≤ mpd) ∧
    (md ≤ ((chunks.map (fun c => c.document_id)).dedup).length →
      min md tc ≤
        ((selectDiverseChunks chunks tc md mpd).map
          (fun c => c.document_id)).dedup.length) := by
  by_cases hc : chunks.isEmpty
  · constructor
    · intro d
      simp [selectDiverseChunks, hc, countDoc]
    · intro hmd
      have hnil : chunks = [] := List.isEmpty_iff.mp hc
      subst hnil
      simp at hmd
      simp [selectDiverseChunks, hmd]
  · have h0 : ([] : List RetrievedChunk).length < max 1 (max md tc) :=
      Nat.lt_of_lt_of_le Nat.zero_lt_one (le_max_left 1 _)
    have hchar : diversePass1 md tc chunks [] [] =
        ((firstOccsAux chunks []).take (max 1 (max md tc)),
          ((firstOccsAux chunks []).take (max 1 (max md tc))).map
            (fun c => (c.document_id, 1))) := by
      have := pass1_char md tc chunks [] h0
      simpa using this
    have hnd1 : (((firstOccsAux chunks []).take (max 1 (max md tc))).map
        (fun c => c.document_id)).Nodup := by
      rw [List.map_take]
      exact (List.take_sublist _ _).nodup (firstOccsAux_docs chunks []).1
    have hsync := countDoc_of_nodup _ hnd1
    have hbound : ∀ d, getCount (((firstOccsAux chunks []).take (max 1 (max md tc))).map
        (fun c => (c.document_id, 1))) d ≤ max 1 mpd := by
      intro d
      rw [← hsync d]
      exact le_trans (countDoc_le_one_of_nodup _ hnd1 d) (le_max_left 1 mpd)
    obtain ⟨hcap, hmem⟩ := pass2_invariant tc mpd chunks _ _ hsync hbound
    have hmax : max 1 mpd = mpd := max_eq_right hmpd
    have hsel : selectDiverseChunks chunks tc md mpd =
        sortDesc (fun c => c.relevance_score)
          (diversePass2 tc mpd chunks
            ((firstOccsAux chunks []).take (max 1 (max md tc)))
            (((firstOccsAux chunks []).take (max 1 (max md tc))).map
              (fun c => (c.document_id, 1)))) := by
      unfold selectDiverseChunks
      rw [if_neg hc, hchar]
    constructor
    · intro d
      rw [hsel, countDoc_perm (perm_sortDesc _ _) d]
      exact le_trans (hcap d) (le_of_eq hmax)
    · intro hmd
      have hdistinct1 : md ≤ (((firstOccsAux chunks []).take (max 1 (max md tc))).map
          (fun c => c.document_id)).dedup.length := by
        by_cases hlen : max 1 (max md tc) ≤ (firstOccsAux chunks []).length
        · have hlen1 : ((firstOccsAux chunks []).take (max 1 (max md tc))).length =
              max 1 (max md tc) := by
            rw [List.length_take]
            omega
          rw [hnd1.dedup, List.length_map, hlen1]
          exact le_trans (le_max_left md tc) (le_max_right 1 (max md tc))
        · have hall : (firstOccsAux chunks []).take (max 1 (max md tc)) =
              firstOccsAux chunks [] :=
            List.take_of_length_le (by omega)
          have hcov : ∀ x ∈ chunks.map (fun c => c.document_id),
              x ∈ ((firstOccsAux chunks []).take (max 1 (max md tc))).map
                (fun c => c.document_id) := by
            intro x hx
            rcases List.mem_map.mp hx with ⟨c, hcmem, rfl⟩
            rcases firstOccsAux_coverage chunks [] c hcmem with h | h
            · simp at h
            · rw [hall]
              exact h
          exact le_trans hmd (dedup_length_le_of_subset hcov)
      have hsub : ∀ x ∈ (((firstOccsAux chunks []).take (max 1 (max md tc))).map
          (fun c => c.document_id)),
          x ∈ ((diversePass2 tc mpd chunks
            ((firstOccsAux chunks []).take (max 1 (max md tc)))
            (((firstOccsAux chunks []).take (max 1 (max md tc))).map
              (fun c => (c.document_id, 1)))).map (fun c => c.document_id)) := by
        intro x hx
        rcases List.mem_map.mp hx with ⟨c, hcmem, rfl⟩
        exact List.mem_map.mpr ⟨c, hmem c hcmem, rfl⟩
      rw [hsel]
      have hperm := dedup_docs_perm (perm_sortDesc
        (fun c : RetrievedChunk => c.relevance_score)
        (diversePass2 tc mpd chunks
          ((firstOccsAux chunks []).take (max 1 (max md tc)))
          (((firstOccsAux chunks []).take (max 1 (max md tc))).map
            (fun c => (c.document_id, 1)))))
      rw [hperm]
      exact le_trans (min_le_left md tc)
        (le_trans hdistinct1 (dedup_length_le_of_subset hsub))

theorem map_doc_zipWith :
    ∀ (chunks : List RetrievedChunk) (scores : List ℚ),
    chunks.length ≤ scores.length →
    (List.zipWith (fun c s => { c with relevance_score := s }) chunks scores).map
      (fun c => c.document_id) = chunks.map (fun c => c.document_id) := by
  intro chunks
  induction chunks with
  | nil => intro scores _; simp
  | cons c rest ih =>
    intro scores hlen
    cases scores with
    | nil => simp at hlen
    | cons s ss =>
      simp only [List.zipWith_cons_cons, List.map_cons, List.cons.injEq]
      exact ⟨trivial, ih ss (by simpa using hlen)⟩

/-- Reranking the whole candidate list permutes it, so the multiset of
document ids is unchanged. -/
theorem rerank_docs_perm (expF : ℚ → ℚ) (predict : List Char → List Char → ℚ)
    (query : List Char) (chunks : List RetrievedChunk) :
    ((rerank expF predict query chunks chunks.length).map
      (fun c => c.document_id)).Perm (chunks.map (fun c => c.document_id)) := by
  by_cases hc : chunks.isEmpty
  · have hnil : chunks = [] := List.isEmpty_iff.mp hc
    subst hnil
    simp [rerank]
  · unfold rerank
    rw [if_neg hc]
    have hslen : (normalizeScores expF (chunks.map fun c => predict query c.content)).length
        = chunks.length := by
      simp [normalizeScores]
    have hulen : (chunks.zipWith (fun c s => { c with relevance_score := s })
        (normalizeScores expF (chunks.map fun c => predict query c.content))).length
        = chunks.length := by
      rw [List.length_zipWith, hslen]
      omega
    have hsort : (sortDesc (fun c : RetrievedChunk => c.relevance_score)
        (chunks.zipWith (fun c s => { c with relevance_score := s })
          (normalizeScores expF (chunks.map fun c => predict query c.content)))).length
        = chunks.length := by
      rw [(perm_sortDesc _ _).length_eq, hulen]
    rw [List.take_of_length_le (le_of_eq hsort)]
    refine ((perm_sortDesc _ _).map _).trans ?_
    rw [map_doc_zipWith chunks _ (le_of_eq hslen.symm)]

/-- **C3.** `Retriever.retrieve_from_multiple_documents` (via
`_select_diverse_chunks`): no document contributes more than
`max_chunks_per_doc` chunks, and if the candidates span at least
`min_docs` distinct documents the result spans at least
`min (min_docs, rerank_top_k)` distinct documents. -/
theorem retrieveMulti_diversity (expF : ℚ → ℚ)
    (predict : List Char → List Char → ℚ) (query : List Char)
    (candidates : List RetrievedChunk)
    (rerank_top_k min_docs max_chunks_per_doc : ℕ)
    (hmpd : 1 ≤ max_chunks_per_doc) :
    (∀ d, countDoc (retrieveMultiChunks expF predict query candidates
        rerank_top_k min_docs max_chunks_per_doc) d ≤ max_chunks_per_doc) ∧
    (min_docs ≤ ((candidates.map (fun c => c.document_id)).dedup).length →
      min min_docs rerank_top_k ≤
        ((retrieveMultiChunks expF predict query candidates
          rerank_top_k min_docs max_chunks_per_doc).map
            (fun c => c.document_id)).dedup.length) := by
  unfold retrieveMultiChunks
  by_cases hc : candidates.isEmpty
  · have hnil : candidates = [] := List.isEmpty_iff.mp hc
    subst hnil
    constructor
    · intro d
      simp [countDoc]
    · intro hmd
      simp at hmd
      simp [hmd]
  · rw [if_neg hc]
    obtain ⟨ha, hb⟩ := selectDiverse_guarantees
      (rerank expF predict query candidates candidates.length)
      rerank_top_k min_docs max_chunks_per_doc hmpd
    refine ⟨fun d => by simpa using ha d, fun hmd => ?_⟩
    have := hb (by
      rw [((rerank_docs_perm expF predict query candidates).dedup).length_eq]
      exact hmd)
    simpa using this

/-- Witness for C3 at a concrete input: two candidates from two
documents. -/
theorem retrieveMulti_diversity_witness :
    (∀ d, countDoc (retrieveMultiChunks (fun _ => 1) (fun _ _ => 0) "q".toList
        [⟨"x1".toList, "c one".toList, "da".toList, "a.pdf".toList,
          1, none, 0, false, 1, 0⟩,
         ⟨"x2".toList, "c two".toList, "db".toList, "b.pdf".toList,
          1, none, 1, false, 1, 0⟩] 10 2 3) d ≤ 3) ∧
    (2 ≤ (([⟨"x1".toList, "c one".toList, "da".toList, "a.pdf".toList,
          1, none, 0, false, 1, 0⟩,
         ⟨"x2".toList, "c two".toList, "db".toList, "b.pdf".toList,
          1, none, 1, false, 1, 0⟩] : List RetrievedChunk).map
            (fun c => c.document_id)).dedup.length →
      min 2 10 ≤
        ((retrieveMultiChunks (fun _ => 1) (fun _ _ => 0) "q".toList
          [⟨"x1".toList, "c one".toList, "da".toList, "a.pdf".toList,
            1, none, 0, false, 1, 0⟩,
           ⟨"x2".toList, "c two".toList, "db".toList, "b.pdf".toList,
            1, none, 1, false, 1, 0⟩] 10 2 3).map
              (fun c => c.document_id)).dedup.length) :=
  retrieveMulti_diversity (fun _ => 1) (fun _ _ => 0) "q".toList
    [⟨"x1".toList, "c one".toList, "da".toList, "a.pdf".toList,
      1, none, 0, false, 1, 0⟩,
     ⟨"x2".toList, "c two".toList, "db".toList, "b.pdf".toList,
      1, none, 1, false, 1, 0⟩] 10 2 3 (by norm_num)

/-- **C4 (amended).** `_select_diverse_chunks` proceeds as: a first pass
that greedily takes the single best chunk per newly-seen document and —
because the code's break requires **both** conditions — stops only once
`max 1 (max min_docs target_count)` chunks are selected (equivalently:
both `min_docs` distinct documents are represented **and** `target_count`
chunks are selected); a second pass that fills remaining slots in
relevance order from documents under `max_chunks_per_doc`; a final
re-sort by `relevance_score` descending. -/
theorem selectDiverse_two_pass (chunks : List RetrievedChunk)
    (target_count min_docs max_per_doc : ℕ) :
    selectDiverseChunks chunks target_count min_docs max_per_doc =
      if chunks.isEmpty then []
      else
        sortDesc (fun c => c.relevance_score)
          (diversePass2 target_count max_per_doc chunks
            ((firstOccsAux chunks []).take (max 1 (max min_docs target_count)))
            (((firstOccsAux chunks []).take
                (max 1 (max min_docs target_count))).map
              (fun c => (c.document_id, 1)))) := by
  by_cases hc : chunks.isEmpty
  · simp [selectDiverseChunks, hc]
  · rw [if_neg hc]
    unfold selectDiverseChunks
    rw [if_neg hc]
    have hchar : diversePass1 min_docs target_count chunks [] [] =
        ((firstOccsAux chunks []).take (max 1 (max min_docs target_count)),
          ((firstOccsAux chunks []).take (max 1 (max min_docs target_count))).map
            (fun c => (c.document_id, 1))) := by
      have := pass1_char min_docs target_count chunks []
        (Nat.lt_of_lt_of_le Nat.zero_lt_one (le_max_left 1 _))
      simpa using this
    rw [hchar]

/-- Counterexample for C4 as frozen: with `target_count = 1`,
`min_docs = 2` and two candidates from two documents, the claimed
or-break first pass stops after one chunk, but the code's and-break keeps
going — the code returns two chunks where the claimed algorithm returns
one. -/
theorem selectDiverse_or_break_refuted :
    selectDiverseChunks
      [⟨"x1".toList, "c one".toList, "da".toList, "a.pdf".toList,
        1, none, 0, false, 1, 1⟩,
       ⟨"x2".toList, "c two".toList, "db".toList, "b.pdf".toList,
        1, none, 1, false, 1, 0⟩] 1 2 3 =
      [⟨"x1".toList, "c one".toList, "da".toList, "a.pdf".toList,
        1, none, 0, false, 1, 1⟩,
       ⟨"x2".toList, "c two".toList, "db".toList, "b.pdf".toList,
        1, none, 1, false, 1, 0⟩] ∧
    selectDiverseClaimed
      [⟨"x1".toList, "c one".toList, "da".toList, "a.pdf".toList,
        1, none, 0, false, 1, 1⟩,
       ⟨"x2".toList, "c two".toList, "db".toList, "b.pdf".toList,
        1, none, 1, false, 1, 0⟩] 1 2 3 =
      [⟨"x1".toList, "c one".toList, "da".toList, "a.pdf".toList,
        1, none, 0, false, 1, 1⟩] := by
  decide

/-- **C2.** `Retriever.retrieve` returns at most `rerank_top_k` chunks,
sorted by `relevance_score` descending, every score in `[0, 1]` (a rounded
logistic transform of the raw cross-encoder score); `expF` models
`math.exp`, which is positive everywhere. -/
theorem retrieve_sorted_bounded
    (expF : ℚ → ℚ) (predict : List Char → List Char → ℚ)
    (query : List Char) (candidates : List RetrievedChunk) (rerank_top_k : ℕ)
    (hexp : ∀ x, 0 < expF x) :
    (retrieveChunks expF predict query candidates rerank_top_k).length ≤ rerank_top_k ∧
    (retrieveChunks expF predict query candidates rerank_top_k).Sorted
      (fun a b => b.relevance_score ≤ a.relevance_score) ∧
    ∀ c ∈ retrieveChunks expF predict query candidates rerank_top_k,
      0 ≤ c.relevance_score ∧ c.relevance_score ≤ 1 := by
  unfold retrieveChunks
  by_cases hc : candidates.isEmpty
  · simp [hc, List.Sorted]
  · rw [if_neg hc]
    unfold rerank
    rw [if_neg hc]
    refine ⟨List.length_take_le _ _, ?_, ?_⟩
    · exact (sorted_sortDesc _ _).sublist (List.take_sublist _ _)
    · intro c hcmem
      have h1 : c ∈ sortDesc (fun c : RetrievedChunk => c.relevance_score)
          (candidates.zipWith (fun c s => { c with relevance_score := s })
            (normalizeScores expF (candidates.map fun c => predict query c.content))) :=
        List.take_subset _ _ hcmem
      have h2 := (perm_sortDesc
        (fun c : RetrievedChunk => c.relevance_score) _).mem_iff.mp h1
      have h3 := relevance_mem_zipWith h2
      rcases List.mem_map.mp h3 with ⟨s, _, hs⟩
      have he := hexp (-s)
      have hd : (0:ℚ) < 1 + expF (-s) := by linarith
      constructor
      · rw [← hs]
        exact pyRound_nonneg (by positivity)
      · rw [← hs]
        exact pyRound_le_one ((div_le_one hd).mpr (by linarith))

/-- Witness for C2 at a concrete input. -/
theorem retrieve_sorted_bounded_witness :
    (retrieveChunks (fun _ => 1) (fun _ _ => 0) "q".toList
      [⟨"i1".toList, "text one".toList, "d1".toList, "doc.pdf".toList,
        1, none, 0, false, 1, 0⟩] 10).length ≤ 10 ∧
    (retrieveChunks (fun _ => 1) (fun _ _ => 0) "q".toList
      [⟨"i1".toList, "text one".toList, "d1".toList, "doc.pdf".toList,
        1, none, 0, false, 1, 0⟩] 10).Sorted
      (fun a b => b.relevance_score ≤ a.relevance_score) ∧
    ∀ c ∈ retrieveChunks (fun _ => 1) (fun _ _ => 0) "q".toList
      [⟨"i1".toList, "text one".toList, "d1".toList, "doc.pdf".toList,
        1, none, 0, false, 1, 0⟩] 10,
      0 ≤ c.relevance_score ∧ c.relevance_score ≤ 1 :=
  retrieve_sorted_bounded (fun _ => 1) (fun _ _ => 0) "q".toList
    [⟨"i1".toList, "text one".toList, "d1".toList, "doc.pdf".toList,
      1, none, 0, false, 1, 0⟩] 10 (fun _ => by norm_num)

theorem extractLoop_empty_quote (chunks : List RetrievedChunk)
    (cit : LlmCitation) (post : List LlmCitation)
    (hq : cit.verbatim_quote = [])
    (hlo : ¬ cit.source_index - 1 < 0)
    (hhi : ¬ (chunks.length : ℤ) ≤ cit.source_index - 1) :
    ∀ (pre : List LlmCitation) (seen : List (List Char)),
    (∀ c ∈ pre, ¬ c.verbatim_quote = []) → (∀ q ∈ seen, q ≠ []) →
    mkCitation (chunks.getD (cit.source_index - 1).toNat default) [] ∈
      (extractLoop chunks (pre ++ cit :: post) seen).1 ∧
    ¬ (extractLoop chunks (pre ++ cit :: post) seen).1 = [] := by
  intro pre
  induction pre with
  | nil =>
    intro seen _ hseen
    rw [List.nil_append, extractLoop, if_neg (by push_neg; omega)]
    have hnm : ¬ cit.verbatim_quote ∈ seen := by
      rw [hq]
      intro hcon
      exact hseen [] hcon rfl
    rw [if_neg hnm, if_neg (by simpa using hq)]
    rw [hq]
    exact ⟨List.mem_cons_self _ _, by simp⟩
  | cons p pre' ih =>
    intro seen hpre hseen
    have hpq : ¬ p.verbatim_quote = [] := hpre p (List.mem_cons_self _ _)
    have hpre' : ∀ c ∈ pre', ¬ c.verbatim_quote = [] :=
      fun c hc => hpre c (List.mem_cons_of_mem _ hc)
    rw [List.cons_append, extractLoop]
    by_cases h1 : p.source_index - 1 < 0 ∨ (chunks.length : ℤ) ≤ p.source_index - 1
    · rw [if_pos h1]
      exact ih seen hpre' hseen
    · rw [if_neg h1]
      by_cases h2 : p.verbatim_quote ∈ seen
      · rw [if_pos h2]
        exact ih seen hpre' hseen
      · rw [if_neg h2, if_pos hpq]
        have hseen' : ∀ q ∈ p.verbatim_quote :: seen, q ≠ [] := by
          intro q hqs
          rcases List.mem_cons.mp hqs with hqs | hqs
          · exact hqs ▸ hpq
          · exact hseen q hqs
        obtain ⟨hmem, hne⟩ := ih (p.verbatim_quote :: seen) hpre' hseen'
        by_cases h3 : validateQuote p.verbatim_quote
            (chunks.getD (p.source_index - 1).toNat default).content = true
        · rw [if_pos h3]
          exact ⟨List.mem_cons_of_mem _ hmem, by simp⟩
        · rw [if_neg h3]
          exact ⟨List.mem_cons_of_mem _ hmem, by simp⟩

/-- The loop of `_extract_citations`, characterized on citation lists with
pairwise-distinct quotes (the duplicate filter then never fires): every
in-range citation is kept, in order, with its quote processed by
`processQuote`, and the verified count is the number of in-range
citations whose quote validates. -/
theorem extractLoop_char (chunks : List RetrievedChunk) :
    ∀ (cits : List LlmCitation) (seen : List (List Char)),
    (cits.map (fun c => c.verbatim_quote)).Nodup →
    (∀ c ∈ cits, c.verbatim_quote ∉ seen) →
    extractLoop chunks cits seen =
      (cits.filterMap (fun cit =>
        if inRangeB chunks cit then
          some (mkCitation (chunkOf chunks cit)
            (processQuote (chunkOf chunks cit) cit.verbatim_quote))
        else none),
       (cits.filter (fun cit => inRangeB chunks cit &&
         validateQuote cit.verbatim_quote (chunkOf chunks cit).content)).length) := by
  intro cits
  induction cits with
  | nil => intro seen _ _; simp [extractLoop]
  | cons cit rest ih =>
    intro seen hnd hseen
    rw [List.map_cons, List.nodup_cons] at hnd
    have hnotseen : cit.verbatim_quote ∉ seen := hseen cit (List.mem_cons_self _ _)
    rw [extractLoop]
    by_cases h1 : cit.source_index - 1 < 0 ∨ (chunks.length : ℤ) ≤ cit.source_index - 1
    · have hrb : inRangeB chunks cit = false := by
        unfold inRangeB
        rcases h1 with h | h <;> simp [h]
      have hfc : (if inRangeB chunks cit then
          some (mkCitation (chunkOf chunks cit)
            (processQuote (chunkOf chunks cit) cit.verbatim_quote))
          else none) = (none : Option Citation) := by
        rw [hrb]
        simp
      have hpc : ¬ ((inRangeB chunks cit && validateQuote cit.verbatim_quote
          (chunkOf chunks cit).content) = true) := by
        rw [hrb]
        simp
      rw [if_pos h1,
        @List.filterMap_cons_none _ _
          (fun cit => if inRangeB chunks cit then
            some (mkCitation (chunkOf chunks cit)
              (processQuote (chunkOf chunks cit) cit.verbatim_quote))
            else none) cit rest hfc,
        @List.filter_cons_of_neg _
          (fun cit => inRangeB chunks cit && validateQuote cit.verbatim_quote
            (chunkOf chunks cit).content) cit rest hpc]
      exact ih seen hnd.2 (fun c hc => hseen c (List.mem_cons_of_mem _ hc))
    · have hrb : inRangeB chunks cit = true := by
        push_neg at h1
        simp only [inRangeB, Bool.not_eq_true', Bool.or_eq_false_iff,
          decide_eq_false_iff_not, not_lt, not_le]
        omega
      rw [if_neg h1, if_neg hnotseen]
      have hrest : ∀ c ∈ rest, c.verbatim_quote ∉ cit.verbatim_quote :: seen := by
        intro c hc
        intro hcon
        rcases List.mem_cons.mp hcon with hcon | hcon
        · exact hnd.1 (hcon ▸ List.mem_map.mpr ⟨c, hc, rfl⟩)
        · exact hseen c (List.mem_cons_of_mem _ hc) hcon
      have hr := ih (cit.verbatim_quote :: seen) hnd.2 hrest
      by_cases h2 : cit.verbatim_quote = []
      · have hval : validateQuote cit.verbatim_quote (chunkOf chunks cit).content
            = false := by
          rw [validateQuote_eq]
          simp [h2]
        have hfc : (if inRangeB chunks cit then
            some (mkCitation (chunkOf chunks cit)
              (processQuote (chunkOf chunks cit) cit.verbatim_quote))
            else none) =
            some (mkCitation (chunks.getD (cit.source_index - 1).toNat default)
              cit.verbatim_quote) := by
          rw [hrb, if_pos rfl, processQuote, if_pos h2]
          rfl
        have hpc : ¬ ((inRangeB chunks cit && validateQuote cit.verbatim_quote
            (chunkOf chunks cit).content) = true) := by
          rw [hrb, hval]
          simp
        rw [if_neg (by simpa using h2), hr,
          @List.filterMap_cons_some _ _
            (fun cit => if inRangeB chunks cit then
              some (mkCitation (chunkOf chunks cit)
                (processQuote (chunkOf chunks cit) cit.verbatim_quote))
              else none) cit rest _ hfc,
          @List.filter_cons_of_neg _
            (fun cit => inRangeB chunks cit && validateQuote cit.verbatim_quote
              (chunkOf chunks cit).content) cit rest hpc]
      · rw [if_pos (by simpa using h2)]
        by_cases h3 : validateQuote cit.verbatim_quote
            (chunkOf chunks cit).content = true
        · have h3g : validateQuote cit.verbatim_quote
              (chunks.getD (cit.source_index - 1).toNat default).content = true := h3
          have hfc : (if inRangeB chunks cit then
              some (mkCitation (chunkOf chunks cit)
                (processQuote (chunkOf chunks cit) cit.verbatim_quote))
              else none) =
              some (mkCitation (chunks.getD (cit.source_index - 1).toNat default)
                cit.verbatim_quote) := by
            rw [hrb, if_pos rfl, processQuote, if_neg h2, if_pos h3]
            rfl
          have hpc : (inRangeB chunks cit && validateQuote cit.verbatim_quote
              (chunkOf chunks cit).content) = true := by
            rw [hrb, Bool.true_and]
            exact h3
          rw [if_pos h3g, hr,
            @List.filterMap_cons_some _ _
              (fun cit => if inRangeB chunks cit then
                some (mkCitation (chunkOf chunks cit)
                  (processQuote (chunkOf chunks cit) cit.verbatim_quote))
                else none) cit rest _ hfc,
            @List.filter_cons_of_pos _
              (fun cit => inRangeB chunks cit && validateQuote cit.verbatim_quote
                (chunkOf chunks cit).content) cit rest hpc,
            List.length_cons]
        · have h3g : ¬ validateQuote cit.verbatim_quote
              (chunks.getD (cit.source_index - 1).toNat default).content = true := h3
          have hfc : (if inRangeB chunks cit then
              some (mkCitation (chunkOf chunks cit)
                (processQuote (chunkOf chunks cit) cit.verbatim_quote))
              else none) =
              some (mkCitation (chunks.getD (cit.source_index - 1).toNat default)
                (findSimilarQuote cit.verbatim_quote
                  (chunks.getD (cit.source_index - 1).toNat default).content)) := by
            rw [hrb, if_pos rfl, processQuote, if_neg h2, if_neg h3]
            rfl
          have hpc : ¬ ((inRangeB chunks cit && validateQuote cit.verbatim_quote
              (chunkOf chunks cit).content) = true) := by
            rw [hrb, Bool.true_and]
            exact h3
          rw [if_neg h3g, hr,
            @List.filterMap_cons_some _ _
              (fun cit => if inRangeB chunks cit then
                some (mkCitation (chunkOf chunks cit)
                  (processQuote (chunkOf chunks cit) cit.verbatim_quote))
                else none) cit rest _ hfc,
            @List.filter_cons_of_neg _
              (fun cit => inRangeB chunks cit && validateQuote cit.verbatim_quote
                (chunkOf chunks cit).content) cit rest hpc]

theorem bestSentence_zero (qwords : List (List Char)) :
    ∀ (sentences : List (List Char)) (b : List Char),
    (∀ s ∈ sentences, wordOverlap qwords s = 0) →
    bestSentence qwords sentences (b, 0) = (b, 0) := by
  intro sentences
  induction sentences with
  | nil => intro b _; rfl
  | cons s rest ih =>
    intro b hz
    rw [bestSentence]
    rw [if_neg (by
      rw [hz s (List.mem_cons_self _ _)]
      omega)]
    exact ih b (fun s' hs' => hz s' (List.mem_cons_of_mem _ hs'))

/-- **C1 (amended).** For every LLM-reported citation with an in-range
`source_index`, a non-empty `verbatim_quote` and a quote not previously
seen (the duplicate filter drops repeats): a case-insensitive substring
match verifies the quote and keeps it verbatim; no substring match and a
distinct-word overlap ratio below `0.8` leaves it unverified and keeps
the citation with its quote replaced by `_find_similar_quote`'s pick —
the best-overlap sentence when one shares a word with the quote,
otherwise the original quote truncated to 200 characters (not a chunk
sentence). `quotes_verified` counts exactly the in-range citations whose
quote validates. -/
theorem extractCitations_validation
    (llmCits : List LlmCitation) (chunks : List RetrievedChunk)
    (hnd : (llmCits.map (fun c => c.verbatim_quote)).Nodup)
    (cit : LlmCitation) (hmem : cit ∈ llmCits)
    (hrange : inRangeB chunks cit = true)
    (hq : ¬ cit.verbatim_quote = [])
    (hcontent : ¬ (chunkOf chunks cit).content = []) :
    (containsSeq (pyStrip (pyLower cit.verbatim_quote))
        (pyLower (chunkOf chunks cit).content) = true →
      validateQuote cit.verbatim_quote (chunkOf chunks cit).content = true ∧
      mkCitation (chunkOf chunks cit) cit.verbatim_quote ∈
        (extractCitations llmCits chunks).1) ∧
    (containsSeq (pyStrip (pyLower cit.verbatim_quote))
        (pyLower (chunkOf chunks cit).content) = false →
      ((((pyWords (pyStrip (pyLower cit.verbatim_quote))).dedup.filter
          (fun w => w ∈ pyWords (pyLower (chunkOf chunks cit).content))).length : ℚ) /
        (((pyWords (pyStrip (pyLower cit.verbatim_quote))).dedup.length : ℚ)) < 4/5 →
      validateQuote cit.verbatim_quote (chunkOf chunks cit).content = false ∧
      mkCitation (chunkOf chunks cit)
          (findSimilarQuote cit.verbatim_quote (chunkOf chunks cit).content) ∈
        (extractCitations llmCits chunks).1)) ∧
    (extractCitations llmCits chunks).2 =
      (llmCits.filter (fun c => inRangeB chunks c &&
        validateQuote c.verbatim_quote (chunkOf chunks c).content)).length ∧
    ((∀ s ∈ split2 '.' ' ' (pyNlToSpace (chunkOf chunks cit).content),
        wordOverlap ((pyWords (pyLower cit.verbatim_quote)).dedup) s = 0) →
      findSimilarQuote cit.verbatim_quote (chunkOf chunks cit).content =
        (if 200 < cit.verbatim_quote.length then cit.verbatim_quote.take 200
         else cit.verbatim_quote)) := by
  have hloop := extractLoop_char chunks llmCits [] hnd (by simp)
  have hsome : (if inRangeB chunks cit then
      some (mkCitation (chunkOf chunks cit)
        (processQuote (chunkOf chunks cit) cit.verbatim_quote))
      else none) = some (mkCitation (chunkOf chunks cit)
        (processQuote (chunkOf chunks cit) cit.verbatim_quote)) := if_pos hrange
  have hkeptLoop : mkCitation (chunkOf chunks cit)
      (processQuote (chunkOf chunks cit) cit.verbatim_quote) ∈
      (extractLoop chunks llmCits []).1 := by
    rw [hloop]
    exact List.mem_filterMap.mpr ⟨cit, hmem, hsome⟩
  have heq : extractCitations llmCits chunks = extractLoop chunks llmCits [] := by
    unfold extractCitations
    rw [if_neg (by
      intro hcon
      exact (List.ne_nil_of_mem hkeptLoop) hcon.1)]
  have hkept : mkCitation (chunkOf chunks cit)
      (processQuote (chunkOf chunks cit) cit.verbatim_quote) ∈
      (extractCitations llmCits chunks).1 := heq ▸ hkeptLoop
  refine ⟨?_, ?_, ?_, ?_⟩
  · intro hsub
    have hv : validateQuote cit.verbatim_quote (chunkOf chunks cit).content = true := by
      rw [validateQuote_eq, if_neg (by simp [hq, hcontent]), if_pos hsub]
    refine ⟨hv, ?_⟩
    have hpq : processQuote (chunkOf chunks cit) cit.verbatim_quote =
        cit.verbatim_quote := by
      rw [processQuote, if_neg hq, if_pos hv]
    exact hpq ▸ hkept
  · intro hsub hratio
    have hv : validateQuote cit.verbatim_quote (chunkOf chunks cit).content = false := by
      rw [validateQuote_eq, if_neg (by simp [hq, hcontent]),
        if_neg (by rw [hsub]; exact Bool.false_ne_true)]
      show (if 0 < ((pyWords (pyStrip (pyLower cit.verbatim_quote))).dedup).length then
        decide (4 * ((pyWords (pyStrip (pyLower cit.verbatim_quote))).dedup).length ≤
          5 * ((pyWords (pyStrip (pyLower cit.verbatim_quote))).dedup.filter
            (fun w => w ∈ pyWords (pyLower (chunkOf chunks cit).content))).length)
        else false) = false
      by_cases hql : 0 < ((pyWords (pyStrip (pyLower cit.verbatim_quote))).dedup).length
      · rw [if_pos hql]
        exact decide_eq_false (fun hnat =>
          (not_le.mpr hratio) ((ratio_iff hql).mpr hnat))
      · rw [if_neg hql]
    refine ⟨hv, ?_⟩
    have hpq : processQuote (chunkOf chunks cit) cit.verbatim_quote =
        findSimilarQuote cit.verbatim_quote (chunkOf chunks cit).content := by
      rw [processQuote, if_neg hq, if_neg (by rw [hv]; exact Bool.false_ne_true)]
    exact hpq ▸ hkept
  · rw [heq, hloop]
  · intro hz
    rw [findSimilarQuote, if_neg hcontent]
    show (if ((bestSentence ((pyWords (pyLower cit.verbatim_quote)).dedup)
        (split2 '.' ' ' (pyNlToSpace (chunkOf chunks cit).content)) ([], 0)).1 ≠ []) then _
      else _) = _
    rw [bestSentence_zero _ _ [] hz]
    rw [if_neg (by simp)]

/-- Witness for C1 at a concrete input: a verbatim quote that is a
substring of its chunk. -/
theorem extractCitations_validation_witness :
    (containsSeq (pyStrip (pyLower "hello world".toList))
        (pyLower (chunkOf [⟨"x1".toList, "say hello world now".toList, "da".toList,
          "a.pdf".toList, 1, none, 0, false, 1, 1⟩] ⟨1, "hello world".toList⟩).content)
          = true →
      validateQuote "hello world".toList
        (chunkOf [⟨"x1".toList, "say hello world now".toList, "da".toList,
          "a.pdf".toList, 1, none, 0, false, 1, 1⟩] ⟨1, "hello world".toList⟩).content
          = true ∧
      mkCitation (chunkOf [⟨"x1".toList, "say hello world now".toList, "da".toList,
          "a.pdf".toList, 1, none, 0, false, 1, 1⟩] ⟨1, "hello world".toList⟩)
        "hello world".toList ∈
        (extractCitations [⟨1, "hello world".toList⟩]
          [⟨"x1".toList, "say hello world now".toList, "da".toList,
            "a.pdf".toList, 1, none, 0, false, 1, 1⟩]).1) ∧
    (containsSeq (pyStrip (pyLower "hello world".toList))
        (pyLower (chunkOf [⟨"x1".toList, "say hello world now".toList, "da".toList,
          "a.pdf".toList, 1, none, 0, false, 1, 1⟩] ⟨1, "hello world".toList⟩).content)
          = false →
      ((((pyWords (pyStrip (pyLower "hello world".toList))).dedup.filter
          (fun w => w ∈ pyWords (pyLower (chunkOf
            [⟨"x1".toList, "say hello world now".toList, "da".toList,
              "a.pdf".toList, 1, none, 0, false, 1, 1⟩]
            ⟨1, "hello world".toList⟩).content))).length : ℚ) /
        (((pyWords (pyStrip (pyLower "hello world".toList))).dedup.length : ℚ)) < 4/5 →
      validateQuote "hello world".toList
        (chunkOf [⟨"x1".toList, "say hello world now".toList, "da".toList,
          "a.pdf".toList, 1, none, 0, false, 1, 1⟩] ⟨1, "hello world".toList⟩).content
          = false ∧
      mkCitation (chunkOf [⟨"x1".toList, "say hello world now".toList, "da".toList,
          "a.pdf".toList, 1, none, 0, false, 1, 1⟩] ⟨1, "hello world".toList⟩)
          (findSimilarQuote "hello world".toList
            (chunkOf [⟨"x1".toList, "say hello world now".toList, "da".toList,
              "a.pdf".toList, 1, none, 0, false, 1, 1⟩]
              ⟨1, "hello world".toList⟩).content) ∈
        (extractCitations [⟨1, "hello world".toList⟩]
          [⟨"x1".toList, "say hello world now".toList, "da".toList,
            "a.pdf".toList, 1, none, 0, false, 1, 1⟩]).1)) ∧
    (extractCitations [⟨1, "hello world".toList⟩]
      [⟨"x1".toList, "say hello world now".toList, "da".toList,
        "a.pdf".toList, 1, none, 0, false, 1, 1⟩]).2 =
      (([⟨1, "hello world".toList⟩] : List LlmCitation).filter
        (fun c => inRangeB [⟨"x1".toList, "say hello world now".toList, "da".toList,
          "a.pdf".toList, 1, none, 0, false, 1, 1⟩] c &&
          validateQuote c.verbatim_quote
            (chunkOf [⟨"x1".toList, "say hello world now".toList, "da".toList,
              "a.pdf".toList, 1, none, 0, false, 1, 1⟩] c).content)).length ∧
    ((∀ s ∈ split2 '.' ' ' (pyNlToSpace (chunkOf
        [⟨"x1".toList, "say hello world now".toList, "da".toList,
          "a.pdf".toList, 1, none, 0, false, 1, 1⟩]
        ⟨1, "hello world".toList⟩).content),
        wordOverlap ((pyWords (pyLower "hello world".toList)).dedup) s = 0) →
      findSimilarQuote "hello world".toList
        (chunkOf [⟨"x1".toList, "say hello world now".toList, "da".toList,
          "a.pdf".toList, 1, none, 0, false, 1, 1⟩]
          ⟨1, "hello world".toList⟩).content =
        (if 200 < ("hello world".toList).length then ("hello world".toList).take 200
         else "hello world".toList)) :=
  extractCitations_validation [⟨1, "hello world".toList⟩]
    [⟨"x1".toList, "say hello world now".toList, "da".toList,
      "a.pdf".toList, 1, none, 0, false, 1, 1⟩]
    (by decide) ⟨1, "hello world".toList⟩ (by decide) (by decide) (by decide)
    (by decide)

/-- Counterexample for C1 as frozen: quote `"zebra"` against the chunk
`"hello world. goodbye moon"` has no substring match and zero word
overlap; the claim says the quote must be replaced by the chunk sentence
with highest token overlap, but the code keeps the original quote
`"zebra"`, which is no (stripped) sentence of the chunk. It is also not
counted verified, and not dropped. -/
theorem extractCitations_keeps_unmatched_quote :
    (extractCitations [⟨1, "zebra".toList⟩]
      [⟨"x1".toList, "hello world. goodbye moon".toList, "da".toList,
        "a.pdf".toList, 1, none, 0, false, 1, 1⟩]).1.map
          (fun c => c.verbatim_quote) = ["zebra".toList] ∧
    (extractCitations [⟨1, "zebra".toList⟩]
      [⟨"x1".toList, "hello world. goodbye moon".toList, "da".toList,
        "a.pdf".toList, 1, none, 0, false, 1, 1⟩]).2 = 0 ∧
    ∀ s ∈ split2 '.' ' '
      (pyNlToSpace "hello world. goodbye moon".toList),
      ¬ pyStrip s = "zebra".toList := by
  have hv : validateQuote "zebra".toList
      "hello world. goodbye moon".toList = false := by
    rw [validateQuote_eq]
    decide
  have hf : findSimilarQuote "zebra".toList
      "hello world. goodbye moon".toList = "zebra".toList := by decide
  have hcits : extractCitations [⟨1, "zebra".toList⟩]
      [⟨"x1".toList, "hello world. goodbye moon".toList, "da".toList,
        "a.pdf".toList, 1, none, 0, false, 1, 1⟩] =
      ([mkCitation ⟨"x1".toList, "hello world. goodbye moon".toList, "da".toList,
        "a.pdf".toList, 1, none, 0, false, 1, 1⟩ "zebra".toList], 0) := by
    simp at hv hf
    simp only [extractCitations, extractLoop]
    norm_num [hv, hf, mkCitation]
  refine ⟨by rw [hcits]; rfl, by rw [hcits], by decide⟩

/-- **C10.** An LLM-reported citation with an in-range `source_index` and
an empty `verbatim_quote` (the first such, so the duplicate filter does
not apply) is still appended to the citation list with the empty quote —
neither verified nor replaced — and its presence suppresses the
synthesized-citation fallback, so `quotes_verified` can be strictly less
than the number of citations. -/
theorem extract_citations_empty_quote
    (llmCits : List LlmCitation) (chunks : List RetrievedChunk)
    (pre post : List LlmCitation) (cit : LlmCitation)
    (hsplit : llmCits = pre ++ cit :: post)
    (hpre : ∀ c ∈ pre, ¬ c.verbatim_quote = [])
    (hq : cit.verbatim_quote = [])
    (hlo : ¬ cit.source_index - 1 < 0)
    (hhi : ¬ (chunks.length : ℤ) ≤ cit.source_index - 1) :
    mkCitation (chunks.getD (cit.source_index - 1).toNat default) [] ∈
      (extractCitations llmCits chunks).1 ∧
    extractCitations llmCits chunks = extractLoop chunks llmCits [] := by
  subst hsplit
  obtain ⟨hmem, hne⟩ := extractLoop_empty_quote chunks cit post hq hlo hhi
    pre [] hpre (by simp)
  have heq : extractCitations (pre ++ cit :: post) chunks =
      extractLoop chunks (pre ++ cit :: post) [] := by
    unfold extractCitations
    rw [if_neg (by
      intro hcon
      exact hne hcon.1)]
  rw [heq]
  exact ⟨hmem, rfl⟩

/-- Witness for C10 at a concrete input: one citation with
`source_index = 1` and an empty quote against one chunk; it is kept, not
verified, and `quotes_verified = 0 < 1 = `number of citations. -/
theorem extract_citations_empty_quote_witness :
    (mkCitation (([⟨"x1".toList, "some searchable content".toList, "da".toList,
        "a.pdf".toList, 1, none, 0, false, 1, 1⟩] : List RetrievedChunk).getD
          (((1:ℤ) - 1).toNat) default) [] ∈
      (extractCitations [⟨1, []⟩]
        [⟨"x1".toList, "some searchable content".toList, "da".toList,
          "a.pdf".toList, 1, none, 0, false, 1, 1⟩]).1 ∧
     extractCitations [⟨1, []⟩]
        [⟨"x1".toList, "some searchable content".toList, "da".toList,
          "a.pdf".toList, 1, none, 0, false, 1, 1⟩] =
       extractLoop [⟨"x1".toList, "some searchable content".toList, "da".toList,
          "a.pdf".toList, 1, none, 0, false, 1, 1⟩] [⟨1, []⟩] []) ∧
    (extractCitations [⟨1, []⟩]
        [⟨"x1".toList, "some searchable content".toList, "da".toList,
          "a.pdf".toList, 1, none, 0, false, 1, 1⟩]).2 <
      (extractCitations [⟨1, []⟩]
        [⟨"x1".toList, "some searchable content".toList, "da".toList,
          "a.pdf".toList, 1, none, 0, false, 1, 1⟩]).1.length :=
  ⟨extract_citations_empty_quote [⟨1, []⟩]
      [⟨"x1".toList, "some searchable content".toList, "da".toList,
        "a.pdf".toList, 1, none, 0, false, 1, 1⟩]
      [] [] ⟨1, []⟩ rfl (by simp) rfl (by decide) (by decide),
   by decide⟩

/-- **C9.** `Generator.generate` short-circuits to the one canonical
not-found `Response` — fixed answer text, empty citations,
`chunks_used = 0`, `not_found = true` — in exactly two cases: the
truncated chunk list is empty, or the model output carries the
`not_found` flag; both yield a `Response` identical apart from timing and
`chunks_retrieved`. -/
theorem generate_not_found_canonical
    (llmCall : List Char → List RetrievedChunk → LlmResponse)
    (query : List Char) (rrChunks : List RetrievedChunk)
    (total_retrieved rt gt ms : ℕ) :
    ((rrChunks.take ms = [] ∨ (llmCall query (rrChunks.take ms)).not_found = true) →
      generate llmCall query rrChunks total_retrieved rt gt ms =
        notFoundResponse query total_retrieved (rt + gt)) ∧
    (¬ rrChunks.take ms = [] → (llmCall query (rrChunks.take ms)).not_found = false →
      (generate llmCall query rrChunks total_retrieved rt gt ms).not_found = false) ∧
    (notFoundResponse query total_retrieved (rt + gt)).answer =
      "No relevant information found in the indexed documents.".toList ∧
    (notFoundResponse query total_retrieved (rt + gt)).citations = [] ∧
    (notFoundResponse query total_retrieved (rt + gt)).metadata.chunks_used = 0 ∧
    (notFoundResponse query total_retrieved (rt + gt)).not_found = true ∧
    ∀ (n' t' : ℕ),
      (notFoundResponse query n' t').answer =
        (notFoundResponse query total_retrieved (rt + gt)).answer ∧
      (notFoundResponse query n' t').citations =
        (notFoundResponse query total_retrieved (rt + gt)).citations ∧
      (notFoundResponse query n' t').query_text =
        (notFoundResponse query total_retrieved (rt + gt)).query_text ∧
      (notFoundResponse query n' t').not_found =
        (notFoundResponse query total_retrieved (rt + gt)).not_found ∧
      (notFoundResponse query n' t').metadata.chunks_used =
        (notFoundResponse query total_retrieved (rt + gt)).metadata.chunks_used ∧
      (notFoundResponse query n' t').metadata.confidence_score =
        (notFoundResponse query total_retrieved (rt + gt)).metadata.confidence_score ∧
      (notFoundResponse query n' t').metadata.quotes_verified =
        (notFoundResponse query total_retrieved (rt + gt)).metadata.quotes_verified := by
  refine ⟨?_, ?_, rfl, rfl, rfl, rfl,
    fun n' t' => ⟨rfl, rfl, rfl, rfl, rfl, rfl, rfl⟩⟩
  · intro h
    by_cases he : rrChunks.take ms = []
    · simp [generate, he]
    · rcases h with h | h
      · exact absurd h he
      · simp [generate, he, h]
  · intro h1 h2
    simp [generate, h1, h2]

/-- Witness for C9 at a concrete input: an empty retrieval result
short-circuits to the canonical not-found response. -/
theorem generate_not_found_canonical_witness :
    generate (fun _ _ => ⟨[], [], false⟩) "q".toList [] 0 0 0 5 =
      notFoundResponse "q".toList 0 (0 + 0) :=
  (generate_not_found_canonical (fun _ _ => ⟨[], [], false⟩)
    "q".toList [] 0 0 0 5).1 (Or.inl rfl)

/-- **C8.** `Generator._generate_aggregated_response` never raises on
malformed structured output: code fences are stripped before parsing, and
a parse failure degrades to the raw (fence-stripped) text as the answer
with empty citations and `not_found = false`, which `Generator.generate`
then returns as a normal (not not-found) response. (The embedding
`parseAggregated` is total, so no exception can escape.) -/
theorem parseAggregated_degrades
    (jsonParse : List Char → Option LlmResponse) (text : List Char)
    (hfail : jsonParse (pyStrip (stripFences text)) = none) :
    parseAggregated jsonParse text =
      { answer := stripFences text, citations := [], not_found := false } ∧
    ∀ (query : List Char) (rrChunks : List RetrievedChunk) (tr rt gt ms : ℕ),
      ¬ rrChunks.take ms = [] →
      (generate (fun _ _ => parseAggregated jsonParse text)
        query rrChunks tr rt gt ms).not_found = false ∧
      (generate (fun _ _ => parseAggregated jsonParse text)
        query rrChunks tr rt gt ms).answer = stripFences text := by
  have hp : parseAggregated jsonParse text =
      { answer := stripFences text, citations := [], not_found := false } := by
    unfold parseAggregated
    rw [hfail]
  refine ⟨hp, fun query rrChunks tr rt gt ms hne => ?_⟩
  constructor
  · simp [generate, hne, hp]
  · simp [generate, hne, hp]

/-- Witness for C8 at a concrete input: a fenced, unparseable reply,
handed to `generate` with one retrieved chunk. -/
theorem parseAggregated_degrades_witness :
    parseAggregated (fun _ => none) "```json garbage```".toList =
      { answer := stripFences "```json garbage```".toList, citations := [],
        not_found := false } ∧
    (generate (fun _ _ => parseAggregated (fun _ => none) "```json garbage```".toList)
      "q".toList [⟨"i1".toList, "some content".toList, "d1".toList, "doc.pdf".toList,
        1, none, 0, false, 1, 1⟩] 1 0 0 5).not_found = false :=
  ⟨(parseAggregated_degrades (fun _ => none) "```json garbage```".toList rfl).1,
   ((parseAggregated_degrades (fun _ => none) "```json garbage```".toList rfl).2
      "q".toList [⟨"i1".toList, "some content".toList, "d1".toList, "doc.pdf".toList,
        1, none, 0, false, 1, 1⟩] 1 0 0 5 (by decide)).1⟩

/-! ## C5: `_calculate_confidence` -/

/-- The score list `_calculate_confidence` actually averages: the strictly
positive citation scores, with the chunk-score fallback when that filter
leaves nothing. -/
def confScores (chunks : List RetrievedChunk) (citations : List Citation) :
    List ℚ :=
  let cs := (citations.map (fun c => c.relevance_score)).filter (fun s => 0 < s)
  if cs = [] then
    (chunks.take citations.length).map (fun c => c.relevance_score)
  else cs

/-- Mean of a score list. -/
def confAvg (l : List ℚ) : ℚ :=
  l.sum / (l.length : ℚ)

/-- The variance penalty of `_calculate_confidence`, gated on the length of
the averaged score list. -/
def confPenalty (l : List ℚ) : ℚ :=
  if 1 < l.length then
    min (((l.map (fun s => (s - confAvg l) ^ 2)).sum / (l.length : ℚ)) * (1/2))
      (1/10)
  else 0

/-- The tail of `_calculate_confidence` once the averaged score list and the
citation count are fixed. -/
def confWith (l : List ℚ) (ncit : ℕ) : ℚ :=
  if l = [] then 0
  else
    max 0 (min 1 (pyRound 2
      (confAvg l + min ((ncit : ℚ) * (2/100)) (1/10) - confPenalty l)))

theorem calcConfidence_factor (chunks : List RetrievedChunk)
    (citations : List Citation) (h : ¬ (chunks = [] ∨ citations = [])) :
    calcConfidence chunks citations =
      confWith (confScores chunks citations) citations.length := by
  simp only [calcConfidence, confWith, confScores, confAvg, confPenalty]
  rw [if_neg h]

theorem confScores_ne_nil (chunks : List RetrievedChunk)
    (citations : List Citation) (hch : chunks ≠ []) (hcit : citations ≠ []) :
    confScores chunks citations ≠ [] := by
  simp only [confScores]
  split_ifs with h
  · cases chunks with
    | nil => exact absurd rfl hch
    | cons a as =>
      cases citations with
      | nil => exact absurd rfl hcit
      | cons b bs => simp
  · exact h

theorem confScores_bounds (chunks : List RetrievedChunk)
    (citations : List Citation)
    (hc : ∀ c ∈ chunks, 0 ≤ c.relevance_score ∧ c.relevance_score ≤ 1)
    (hcb : ∀ c ∈ citations, 0 ≤ c.relevance_score ∧ c.relevance_score ≤ 1) :
    ∀ s ∈ confScores chunks citations, 0 ≤ s ∧ s ≤ 1 := by
  intro s hs
  simp only [confScores] at hs
  split_ifs at hs with h
  · obtain ⟨c, hcm, rfl⟩ := List.mem_map.mp hs
    exact hc c (List.mem_of_mem_take hcm)
  · obtain ⟨hm, _⟩ := List.mem_filter.mp hs
    obtain ⟨c, hcm, rfl⟩ := List.mem_map.mp hm
    exact hcb c hcm

theorem list_sum_sq_le_sum (l : List ℚ) (hb : ∀ s ∈ l, 0 ≤ s ∧ s ≤ 1) :
    (l.map (fun s => s ^ 2)).sum ≤ l.sum := by
  induction l with
  | nil => simp
  | cons x xs ih =>
    simp only [List.map_cons, List.sum_cons]
    have hx := hb x (List.mem_cons_self x xs)
    have h1 : x ^ 2 ≤ x := by nlinarith [hx.1, hx.2]
    have h2 := ih (fun s hs => hb s (List.mem_cons_of_mem x hs))
    linarith

theorem list_sum_dev_sq (l : List ℚ) (a : ℚ) :
    (l.map (fun s => (s - a) ^ 2)).sum =
      (l.map (fun s => s ^ 2)).sum - 2 * a * l.sum + l.length * a ^ 2 := by
  induction l with
  | nil => simp
  | cons x xs ih =>
    simp only [List.map_cons, List.sum_cons, List.length_cons]
    rw [ih]
    push_cast
    ring

theorem confAvg_bounds (l : List ℚ) (hne : l ≠ [])
    (hb : ∀ s ∈ l, 0 ≤ s ∧ s ≤ 1) : 0 ≤ confAvg l ∧ confAvg l ≤ 1 := by
  have hn : (0:ℚ) < (l.length : ℚ) := by
    have : 0 < l.length := List.length_pos.mpr hne
    exact_mod_cast this
  unfold confAvg
  constructor
  · exact div_nonneg (List.sum_nonneg (fun s hs => (hb s hs).1)) hn.le
  · rw [div_le_one hn]
    calc l.sum ≤ l.length • (1:ℚ) :=
          List.sum_le_card_nsmul l 1 (fun s hs => (hb s hs).2)
    _ = (l.length : ℚ) := by simp

theorem confVariance_le_avg (l : List ℚ) (hne : l ≠ [])
    (hb : ∀ s ∈ l, 0 ≤ s ∧ s ≤ 1) :
    (l.map (fun s => (s - confAvg l) ^ 2)).sum / (l.length : ℚ) ≤ confAvg l := by
  have hn : (0:ℚ) < (l.length : ℚ) := by
    have : 0 < l.length := List.length_pos.mpr hne
    exact_mod_cast this
  have hsum : l.sum = (l.length : ℚ) * confAvg l := by
    unfold confAvg
    field_simp
  rw [list_sum_dev_sq, div_le_iff₀ hn, hsum]
  have hsq := list_sum_sq_le_sum l hb
  rw [hsum] at hsq
  have hprod : 0 ≤ (l.length : ℚ) * confAvg l ^ 2 :=
    mul_nonneg hn.le (sq_nonneg _)
  nlinarith [hsq, hprod]

theorem confPenalty_le (l : List ℚ) (hne : l ≠ [])
    (hb : ∀ s ∈ l, 0 ≤ s ∧ s ≤ 1) : confPenalty l ≤ confAvg l / 2 := by
  have havg := confAvg_bounds l hne hb
  unfold confPenalty
  split_ifs with h
  · refine le_trans (min_le_left _ _) ?_
    have hv := confVariance_le_avg l hne hb
    linarith
  · linarith [havg.1]

theorem confWith_pos (l : List ℚ) (hne : l ≠ [])
    (hb : ∀ s ∈ l, 0 ≤ s ∧ s ≤ 1) (ncit : ℕ) (hnc : 1 ≤ ncit) :
    1/50 ≤ confWith l ncit := by
  unfold confWith
  rw [if_neg hne]
  have havg := confAvg_bounds l hne hb
  have hpen := confPenalty_le l hne hb
  have hb1 : (1:ℚ)/50 ≤ min ((ncit:ℚ) * (2/100)) (1/10) := by
    apply le_min
    · have h1 : (1:ℚ) ≤ (ncit:ℚ) := by exact_mod_cast hnc
      nlinarith
    · norm_num
  have hconf : 1/50 ≤ confAvg l + min ((ncit:ℚ) * (2/100)) (1/10) -
      confPenalty l := by
    linarith [havg.1]
  have hpy : ((2:ℤ):ℚ) / 10 ^ 2 ≤ pyRound 2
      (confAvg l + min ((ncit:ℚ) * (2/100)) (1/10) - confPenalty l) := by
    apply le_pyRound
    push_cast
    nlinarith
  refine le_trans ?_ (le_max_right 0 _)
  apply le_min
  · norm_num
  · calc (1:ℚ)/50 = ((2:ℤ):ℚ) / 10 ^ 2 := by norm_num
    _ ≤ _ := hpy

theorem confWith_nonneg (l : List ℚ) (ncit : ℕ) : 0 ≤ confWith l ncit := by
  unfold confWith
  split_ifs
  · exact le_refl 0
  · exact le_max_left 0 _

theorem confWith_le_one (l : List ℚ) (ncit : ℕ) : confWith l ncit ≤ 1 := by
  unfold confWith
  split_ifs
  · norm_num
  · exact max_le (by norm_num) (min_le_left _ _)

/-- C5 (amended): provided every chunk and citation relevance score lies in
[0,1] (as they do in the pipeline), `_calculate_confidence` returns a value
in [0,1], and returns exactly 0 iff the chunk list or the citation list is
empty. (The base average the code takes is over the strictly positive
citation scores only — not over all citation scores — and the variance
penalty is gated on that filtered list having more than one element, not on
there being more than one citation; see the accompanying counterexample.) -/
theorem calcConfidence_props (chunks : List RetrievedChunk)
    (citations : List Citation)
    (hc : ∀ c ∈ chunks, 0 ≤ c.relevance_score ∧ c.relevance_score ≤ 1)
    (hcb : ∀ c ∈ citations, 0 ≤ c.relevance_score ∧ c.relevance_score ≤ 1) :
    0 ≤ calcConfidence chunks citations ∧
    calcConfidence chunks citations ≤ 1 ∧
    (calcConfidence chunks citations = 0 ↔ chunks = [] ∨ citations = []) := by
  by_cases h : chunks = [] ∨ citations = []
  · have h0 : calcConfidence chunks citations = 0 := by
      unfold calcConfidence
      rw [if_pos h]
    rw [h0]
    exact ⟨le_refl 0, by norm_num, by simp [h]⟩
  · have heq := calcConfidence_factor chunks citations h
    push_neg at h
    have hne := confScores_ne_nil chunks citations h.1 h.2
    have hbnd := confScores_bounds chunks citations hc hcb
    have hnc : 1 ≤ citations.length := List.length_pos.mpr h.2
    have hpos := confWith_pos _ hne hbnd _ hnc
    rw [heq]
    refine ⟨le_trans (by norm_num) hpos, confWith_le_one _ _, ?_, ?_⟩
    · intro h0
      rw [h0] at hpos
      norm_num at hpos
    · intro hcon
      rcases hcon with hcon | hcon
      · exact absurd hcon h.1
      · exact absurd hcon h.2

/-- Witness for C5 at a concrete input: one chunk and one citation, both
with relevance score 1. -/
theorem calcConfidence_props_witness :
    0 ≤ calcConfidence
        [⟨"i".toList, "c".toList, "d".toList, "n".toList, 1, none, 0, false, 1, 1⟩]
        [⟨"n".toList, 1, "q".toList, 1⟩] ∧
    calcConfidence
        [⟨"i".toList, "c".toList, "d".toList, "n".toList, 1, none, 0, false, 1, 1⟩]
        [⟨"n".toList, 1, "q".toList, 1⟩] ≤ 1 ∧
    (calcConfidence
        [⟨"i".toList, "c".toList, "d".toList, "n".toList, 1, none, 0, false, 1, 1⟩]
        [⟨"n".toList, 1, "q".toList, 1⟩] = 0 ↔
      ([⟨"i".toList, "c".toList, "d".toList, "n".toList, 1, none, 0, false, 1, 1⟩] :
        List RetrievedChunk) = [] ∨
      ([⟨"n".toList, 1, "q".toList, 1⟩] : List Citation) = []) :=
  calcConfidence_props _ _ (by decide) (by decide)

/-- `_calculate_confidence` as the specification describes it (for
comparison; not a translation of the source): the base is the mean of ALL
citation relevance scores, the chunk-score fallback fires when all citation
scores are 0, and the variance penalty applies whenever there is more than
one citation. -/
def calcConfidenceClaim (chunks : List RetrievedChunk)
    (citations : List Citation) : ℚ :=
  if chunks = [] ∨ citations = [] then 0
  else
    let scores0 := citations.map (fun c => c.relevance_score)
    let scores :=
      if scores0.all (fun s => decide (s = 0)) then
        (chunks.take citations.length).map (fun c => c.relevance_score)
      else scores0
    if scores = [] then 0
    else
      let avg := scores.sum / (scores.length : ℚ)
      let bonus := min ((citations.length : ℚ) * (2/100)) (1/10)
      let pen :=
        if 1 < citations.length then
          min (((scores.map (fun s => (s - avg) ^ 2)).sum /
                (scores.length : ℚ)) * (1/2)) (1/10)
        else 0
      max 0 (min 1 (pyRound 2 (avg + bonus - pen)))

/-- Counterexample for C5: one chunk (score 1) and two citations with
scores 0 and 1. The code averages only the strictly positive citation
scores (`[1]`, mean 1) and — seeing a one-element score list — applies no
variance penalty, returning 1. The claim's description averages all
citation scores (`[0,1]`, mean 1/2) and applies the variance penalty
because there are two citations, returning 0.44. -/
theorem calcConfidence_claim_mean_refuted :
    calcConfidence
        [⟨"i".toList, "c".toList, "d".toList, "n".toList, 1, none, 0, false, 1, 1⟩]
        [⟨"n".toList, 1, "q".toList, 0⟩, ⟨"n".toList, 1, "q".toList, 1⟩] = 1 ∧
    calcConfidenceClaim
        [⟨"i".toList, "c".toList, "d".toList, "n".toList, 1, none, 0, false, 1, 1⟩]
        [⟨"n".toList, 1, "q".toList, 0⟩, ⟨"n".toList, 1, "q".toList, 1⟩] =
      44/100 ∧
    ¬ calcConfidence
        [⟨"i".toList, "c".toList, "d".toList, "n".toList, 1, none, 0, false, 1, 1⟩]
        [⟨"n".toList, 1, "q".toList, 0⟩, ⟨"n".toList, 1, "q".toList, 1⟩] =
      calcConfidenceClaim
        [⟨"i".toList, "c".toList, "d".toList, "n".toList, 1, none, 0, false, 1, 1⟩]
        [⟨"n".toList, 1, "q".toList, 0⟩, ⟨"n".toList, 1, "q".toList, 1⟩] := by
  have hcode : calcConfidence
      [⟨"i".toList, "c".toList, "d".toList, "n".toList, 1, none, 0, false, 1, 1⟩]
      [⟨"n".toList, 1, "q".toList, 0⟩, ⟨"n".toList, 1, "q".toList, 1⟩] = 1 := by
    simp only [calcConfidence]
    norm_num [List.filter, pyRound, pyRoundInt, min_def, max_def]
    all_goals simp
  have hclaim : calcConfidenceClaim
      [⟨"i".toList, "c".toList, "d".toList, "n".toList, 1, none, 0, false, 1, 1⟩]
      [⟨"n".toList, 1, "q".toList, 0⟩, ⟨"n".toList, 1, "q".toList, 1⟩] =
      44/100 := by
    simp only [calcConfidenceClaim]
    norm_num [pyRound, pyRoundInt, min_def, max_def]
    all_goals simp
  refine ⟨hcode, hclaim, ?_⟩
  rw [hcode, hclaim]
  norm_num

/-! ## C6/C7: whitespace cleanliness of `pyStrip`, and split-point facts -/

/-- `l` does not start with a whitespace character. -/
def noSpaceHead (l : List Char) : Prop :=
  ∀ c, l.head? = some c → pyIsSpace c = false

/-- `l` does not end with a whitespace character. -/
def noSpaceLast (l : List Char) : Prop :=
  ∀ c, l.getLast? = some c → pyIsSpace c = false

theorem head?_dropWhile_false {p : Char → Bool} {l : List Char} {c : Char}
    (h : (l.dropWhile p).head? = some c) : p c = false := by
  induction l with
  | nil => simp at h
  | cons x xs ih =>
    rw [List.dropWhile_cons] at h
    split_ifs at h with hx
    · exact ih h
    · simp only [List.head?_cons, Option.some.injEq] at h
      simp only [Bool.not_eq_true] at hx
      rw [← h]
      exact hx

theorem strip_of_clean {l : List Char} (h1 : noSpaceHead l) (h2 : noSpaceLast l) :
    pyStrip l = l := by
  have hd : l.dropWhile pyIsSpace = l := by
    cases l with
    | nil => rfl
    | cons x xs =>
      have hx := h1 x rfl
      rw [List.dropWhile_cons, if_neg (by simp [hx])]
  have hr : l.reverse.dropWhile pyIsSpace = l.reverse := by
    cases hrev : l.reverse with
    | nil => rfl
    | cons y ys =>
      have hy : l.getLast? = some y := by
        rw [← List.head?_reverse, hrev]
        rfl
      have hys := h2 y hy
      rw [List.dropWhile_cons, if_neg (by simp [hys])]
  unfold pyStrip
  rw [hd, hr, List.reverse_reverse]

theorem noSpaceHead_pyStrip (m : List Char) : noSpaceHead (pyStrip m) := by
  intro c hc
  unfold pyStrip at hc
  rw [List.head?_reverse] at hc
  have hxne : (m.dropWhile pyIsSpace).reverse.dropWhile pyIsSpace ≠ [] := by
    intro h0
    rw [h0] at hc
    simp at hc
  have hsuf : (m.dropWhile pyIsSpace).reverse.dropWhile pyIsSpace <:+
      (m.dropWhile pyIsSpace).reverse := List.dropWhile_suffix pyIsSpace
  obtain ⟨t, ht⟩ := hsuf
  have hgl : (m.dropWhile pyIsSpace).reverse.getLast? = some c := by
    rw [← ht, List.getLast?_append_of_ne_nil t hxne]
    exact hc
  rw [List.getLast?_reverse] at hgl
  exact head?_dropWhile_false hgl

theorem noSpaceLast_pyStrip (m : List Char) : noSpaceLast (pyStrip m) := by
  intro c hc
  unfold pyStrip at hc
  rw [List.getLast?_reverse] at hc
  exact head?_dropWhile_false hc

theorem pyStrip_idem (l : List Char) : pyStrip (pyStrip l) = pyStrip l :=
  strip_of_clean (noSpaceHead_pyStrip l) (noSpaceLast_pyStrip l)

theorem noSpaceHead_append {l m : List Char} (hl : l ≠ []) (h : noSpaceHead l) :
    noSpaceHead (l ++ m) := by
  intro c hc
  rw [List.head?_append_of_ne_nil l hl] at hc
  exact h c hc

theorem noSpaceLast_append {l m : List Char} (hm : m ≠ []) (h : noSpaceLast m) :
    noSpaceLast (l ++ m) := by
  intro c hc
  rw [List.getLast?_append_of_ne_nil l hm] at hc
  exact h c hc

theorem pyStrip_decomp (l : List Char) :
    ∃ u v, (∀ c ∈ u, pyIsSpace c = true) ∧ (∀ c ∈ v, pyIsSpace c = true) ∧
      l = u ++ (pyStrip l ++ v) := by
  refine ⟨l.takeWhile pyIsSpace,
    ((l.dropWhile pyIsSpace).reverse.takeWhile pyIsSpace).reverse, ?_, ?_, ?_⟩
  · intro c hc
    exact List.mem_takeWhile_imp hc
  · intro c hc
    rw [List.mem_reverse] at hc
    exact List.mem_takeWhile_imp hc
  · have h1 : l.takeWhile pyIsSpace ++ l.dropWhile pyIsSpace = l := by simp
    have h2 : (l.dropWhile pyIsSpace).reverse.takeWhile pyIsSpace ++
        (l.dropWhile pyIsSpace).reverse.dropWhile pyIsSpace =
        (l.dropWhile pyIsSpace).reverse := by simp
    have h3 := congrArg List.reverse h2
    rw [List.reverse_append, List.reverse_reverse] at h3
    have h4 : l.dropWhile pyIsSpace =
        pyStrip l ++ ((l.dropWhile pyIsSpace).reverse.takeWhile pyIsSpace).reverse := by
      unfold pyStrip
      exact h3.symm
    conv_lhs => rw [← h1, h4]

theorem pyStrip_of_nonspace {a : Char} (ha : pyIsSpace a = false) (n : ℕ) :
    pyStrip (List.replicate n a) = List.replicate n a := by
  apply strip_of_clean
  · intro c hc
    cases n with
    | zero => simp at hc
    | succ k =>
      rw [List.replicate_succ] at hc
      simp only [List.head?_cons, Option.some.injEq] at hc
      rw [← hc]
      exact ha
  · intro c hc
    have hm : c ∈ List.replicate n a := List.mem_of_getLast?_eq_some hc
    rw [List.eq_of_mem_replicate hm]
    exact ha

theorem leadsWith_le_length {needle hay : List Char}
    (h : leadsWith needle hay = true) : needle.length ≤ hay.length := by
  induction needle generalizing hay with
  | nil => simp
  | cons a s ih =>
    cases hay with
    | nil => simp [leadsWith] at h
    | cons b t =>
      simp only [leadsWith, Bool.and_eq_true] at h
      have := ih h.2
      simp only [List.length_cons]
      omega

theorem pyRfind_some_bound {needle l : List Char} {e p : ℕ}
    (h : pyRfind needle l e = some p) (hne : needle ≠ []) :
    p + needle.length ≤ e := by
  unfold pyRfind at h
  have hmem := List.mem_of_getLast?_eq_some h
  rw [List.mem_filter] at hmem
  obtain ⟨_, hlw⟩ := hmem
  have hlen := leadsWith_le_length (by simpa using hlw)
  rw [List.length_drop] at hlen
  have htake : (l.take e).length ≤ e := by
    rw [List.length_take]
    omega
  have h0 : 0 < needle.length := List.length_pos.mpr hne
  omega

theorem pyRfind_head_not_mem {x : Char} {s l : List Char} {e : ℕ}
    (hx : x ∉ l) : pyRfind (x :: s) l e = none := by
  unfold pyRfind
  rw [List.getLast?_eq_none_iff, List.filter_eq_nil_iff]
  intro i _
  cases hd : (l.take e).drop i with
  | nil => simp [leadsWith]
  | cons y t =>
    have hy0 : y ∈ (l.take e).drop i := by
      rw [hd]
      exact List.mem_cons_self y t
    have hy : y ∈ l := List.mem_of_mem_take (List.mem_of_mem_drop hy0)
    have hxy : ¬ x = y := fun h => hx (h ▸ hy)
    simp [leadsWith, hxy]

theorem sentSplitScan_le (content : List Char) (seps : List (List Char))
    (hne : ∀ s ∈ seps, s ≠ []) : sentSplitScan content seps ≤ 24000 := by
  induction seps with
  | nil => simp [sentSplitScan]
  | cons sep rest ih =>
    cases hp : pyRfind sep content 24000 with
    | none =>
      simp only [sentSplitScan, hp]
      exact ih (fun s hs => hne s (List.mem_cons_of_mem _ hs))
    | some p =>
      simp only [sentSplitScan, hp]
      by_cases h12 : 12000 < p
      · rw [if_pos h12]
        exact pyRfind_some_bound hp (hne sep (List.mem_cons_self _ _))
      · rw [if_neg h12]
        exact ih (fun s hs => hne s (List.mem_cons_of_mem _ hs))

theorem computeSplitPoint_le (content : List Char) :
    computeSplitPoint content ≤ 24000 := by
  have hscan : sentSplitScan content
      [['.', ' '], ['.', '\n'], ['?', ' '], ['!', '\n']] ≤ 24000 :=
    sentSplitScan_le content _ (by decide)
  cases hp : pyRfind ['\n', '\n'] content 24000 with
  | none =>
    simp only [computeSplitPoint, hp]
    exact hscan
  | some p =>
    simp only [computeSplitPoint, hp]
    by_cases h12 : 12000 < p
    · rw [if_pos h12]
      have := pyRfind_some_bound hp (by decide)
      omega
    · rw [if_neg h12]
      exact hscan

theorem computeSplitPoint_replicate (n : ℕ) :
    computeSplitPoint (List.replicate n 'a') = 24000 := by
  have hnm : ∀ (x : Char), ¬ x = 'a' → x ∉ List.replicate n 'a' := by
    intro x hx hmem
    exact hx (List.eq_of_mem_replicate hmem)
  simp only [computeSplitPoint, sentSplitScan,
    pyRfind_head_not_mem (hnm '\n' (by decide)),
    pyRfind_head_not_mem (hnm '.' (by decide)),
    pyRfind_head_not_mem (hnm '?' (by decide)),
    pyRfind_head_not_mem (hnm '!' (by decide))]

theorem split2_no_sep (a b : Char) (l : List Char) (h : ∀ c ∈ l, ¬ c = a) :
    split2 a b l = [l] := by
  induction l with
  | nil => rfl
  | cons c tail ih =>
    cases tail with
    | nil => rfl
    | cons d rest =>
      rw [split2]
      have hc : ¬ c = a := h c (List.mem_cons_self _ _)
      rw [if_neg (fun hcd => hc hcd.1)]
      rw [ih (fun x hx => h x (List.mem_cons_of_mem c hx))]

theorem containsSeq_no_head (x : Char) (s : List Char) (l : List Char)
    (h : ∀ c ∈ l, ¬ c = x) : containsSeq (x :: s) l = false := by
  induction l with
  | nil => rfl
  | cons b t ih =>
    have hb : ¬ x = b := fun he => (h b (List.mem_cons_self _ _)) he.symm
    simp only [containsSeq, leadsWith, Bool.or_eq_false_iff, Bool.and_eq_false_iff]
    constructor
    · left
      simp [hb]
    · exact ih (fun c hc => h c (List.mem_cons_of_mem b hc))

theorem fallbackLoop_inv (did dn : List Char) (pn : ℕ) (paras : List (List Char)) :
    ∀ (cur : List Char) (idx : ℕ),
      (cur = [] ∨ (noSpaceHead cur ∧ noSpaceLast cur)) →
      ∀ ch ∈ fallbackLoop did dn pn paras cur idx,
        pyStrip ch.content = ch.content ∧ 50 ≤ ch.content.length := by
  induction paras with
  | nil =>
    intro cur idx hcur ch hch
    simp only [fallbackLoop] at hch
    split_ifs at hch with hg
    · simp only [List.mem_singleton] at hch
      subst hch
      rcases hcur with rfl | hclean
      · exact absurd rfl hg.1
      · have hs : pyStrip cur = cur := strip_of_clean hclean.1 hclean.2
        refine ⟨?_, ?_⟩
        · show pyStrip (pyStrip cur) = pyStrip cur
          rw [pyStrip_idem]
        · show 50 ≤ (pyStrip cur).length
          rw [hs]
          exact hg.2
    · simp at hch
  | cons para rest ih =>
    intro cur idx hcur ch hch
    simp only [fallbackLoop] at hch
    have hpc : noSpaceHead (pyStrip para) ∧ noSpaceLast (pyStrip para) :=
      ⟨noSpaceHead_pyStrip para, noSpaceLast_pyStrip para⟩
    by_cases hp : pyStrip para = []
    · rw [if_pos hp] at hch
      exact ih cur idx hcur ch hch
    · rw [if_neg hp] at hch
      by_cases hover : ¬ cur = [] ∧ 2000 < cur.length + (pyStrip para).length
      · rw [if_pos hover] at hch
        by_cases h50 : 50 ≤ cur.length
        · rw [if_pos h50] at hch
          rcases List.mem_cons.mp hch with rfl | hch2
          · rcases hcur with rfl | hclean
            · exact absurd rfl hover.1
            · have hs : pyStrip cur = cur := strip_of_clean hclean.1 hclean.2
              refine ⟨?_, ?_⟩
              · show pyStrip (pyStrip cur) = pyStrip cur
                rw [pyStrip_idem]
              · show 50 ≤ (pyStrip cur).length
                rw [hs]
                exact h50
          · exact ih _ _ (Or.inr hpc) ch hch2
        · rw [if_neg h50] at hch
          exact ih _ _ (Or.inr hpc) ch hch
      · rw [if_neg hover] at hch
        by_cases hc0 : cur = []
        · rw [if_pos hc0] at hch
          exact ih _ _ (Or.inr hpc) ch hch
        · rw [if_neg hc0] at hch
          rcases hcur with rfl | hclean
          · exact absurd rfl hc0
          · have htail : noSpaceLast ('\n' :: '\n' :: pyStrip para) := by
              intro c hcg
              rw [show ('\n' :: '\n' :: pyStrip para) =
                  ['\n', '\n'] ++ pyStrip para from rfl,
                List.getLast?_append_of_ne_nil _ hp] at hcg
              exact hpc.2 c hcg
            have hnew : noSpaceHead (cur ++ '\n' :: '\n' :: pyStrip para) ∧
                noSpaceLast (cur ++ '\n' :: '\n' :: pyStrip para) :=
              ⟨noSpaceHead_append hc0 hclean.1,
               noSpaceLast_append (by simp) htail⟩
            exact ih _ _ (Or.inr hnew) ch hch

theorem fallbackChunk_inv (text : List Char) (pn : ℕ) (did dn : List Char)
    (si : ℕ) : ∀ ch ∈ fallbackChunk text pn did dn si,
      pyStrip ch.content = ch.content ∧ 50 ≤ ch.content.length := by
  intro ch hch
  exact fallbackLoop_inv did dn pn _ [] si (Or.inl rfl) ch hch

theorem chunkText_inv (llm : List Char → Option (List LlmChunkData))
    (text : List Char) (pn : ℕ) (did dn : List Char) (si : ℕ) :
    ∀ ch ∈ chunkText llm text pn did dn si,
      pyStrip ch.content = ch.content ∧ 50 ≤ ch.content.length := by
  intro ch hch
  unfold chunkText at hch
  split_ifs at hch with h12
  · cases hllm : llm text with
    | none =>
      rw [hllm] at hch
      exact fallbackChunk_inv text pn did dn si ch hch
    | some llmChunks =>
      rw [hllm] at hch
      simp only at hch
      split_ifs at hch with hkept
      · exact fallbackChunk_inv text pn did dn si ch hch
      · obtain ⟨q, hqmem, hf⟩ := List.mem_filterMap.mp hch
        split_ifs at hf with h50
        simp only [Option.some.injEq] at hf
        subst hf
        exact ⟨pyStrip_idem _, h50⟩
  · exact fallbackChunk_inv text pn did dn si ch hch

theorem pagesLoop_inv (llm : List Char → Option (List LlmChunkData))
    (did dn : List Char) (pages : List ExtractedPage) :
    ∀ (idx : ℕ), ∀ ch ∈ pagesLoop llm did dn pages idx,
      pyStrip ch.content = ch.content ∧ 50 ≤ ch.content.length := by
  induction pages with
  | nil =>
    intro idx ch hch
    simp [pagesLoop] at hch
  | cons page rest ih =>
    intro idx ch hch
    simp only [pagesLoop] at hch
    split_ifs at hch with hskip
    · exact ih _ ch hch
    · rw [List.mem_append] at hch
      rcases hch with hch | hch
      · exact chunkText_inv llm _ _ did dn idx ch hch
      · exact ih _ ch hch

theorem splitLoop_inv (c0 : Chunk) :
    ∀ (n : ℕ) (content : List Char) (k : ℕ), content.length ≤ n →
      pyStrip content = content →
      ∀ ch ∈ splitLoop c0 content k,
        pyStrip ch.content = ch.content ∧ 50 ≤ ch.content.length := by
  intro n
  induction n with
  | zero =>
    intro content k hlen hstr ch hch
    have h0 : content = [] := List.length_eq_zero.mp (Nat.le_zero.mp hlen)
    subst h0
    rw [splitLoop] at hch
    simp at hch
  | succ m ih =>
    intro content k hlen hstr ch hch
    rw [splitLoop] at hch
    by_cases h0 : content = []
    · rw [if_pos h0] at hch
      simp at hch
    · rw [if_neg h0] at hch
      by_cases h24 : content.length ≤ 24000
      · rw [if_pos h24] at hch
        split_ifs at hch with hg
        · simp only [List.mem_singleton] at hch
          subst hch
          exact ⟨hstr, hg.2⟩
        · simp at hch
      · rw [if_neg h24] at hch
        have hlt : (pyStrip (content.drop (computeSplitPoint content))).length < content.length := by
          refine Nat.lt_of_le_of_lt (length_pyStrip_le _) ?_
          rw [List.length_drop]
          have := lt_computeSplitPoint content
          omega
        split_ifs at hch with hg
        · rcases List.mem_cons.mp hch with rfl | hch2
          · exact ⟨pyStrip_idem _, hg.2⟩
          · exact ih _ _ (by omega) (pyStrip_idem _) ch hch2
        · exact ih _ _ (by omega) (pyStrip_idem _) ch hch

theorem splitOversized_inv (c : Chunk)
    (hc : pyStrip c.content = c.content ∧ 50 ≤ c.content.length) :
    ∀ d ∈ splitOversized c,
      pyStrip d.content = d.content ∧ 50 ≤ d.content.length := by
  intro d hd
  unfold splitOversized at hd
  split_ifs at hd with h24 hsub
  · simp only [List.mem_singleton] at hd
    subst hd
    exact hc
  · simp only [List.mem_singleton] at hd
    subst hd
    exact hc
  · exact splitLoop_inv c c.content.length c.content 0 le_rfl hc.1 d hd

/-- C6 (amended): every chunk `Chunker.chunk_pages` returns carries content
that is already trimmed and at least 50 characters long — in particular its
trimmed content length is at least 50, as the specification claims. The
specification's other conjunct — `chunk_index` strictly increasing within a
document — fails once an oversized chunk is re-split before embedding; see
the accompanying counterexample. -/
theorem chunkPages_trimmed_min (llm : List Char → Option (List LlmChunkData))
    (embed : List Char → List ℚ) (pages : List ExtractedPage)
    (did dn : List Char) :
    ∀ ch ∈ chunkPages llm embed pages did dn,
      pyStrip ch.content = ch.content ∧ 50 ≤ (pyStrip ch.content).length := by
  intro ch hch
  unfold chunkPages at hch
  split_ifs at hch with hemp
  · simp at hch
  · unfold addEmbeddings at hch
    rw [if_neg hemp] at hch
    rw [List.mem_map] at hch
    obtain ⟨d, hd, rfl⟩ := hch
    rw [List.mem_flatMap] at hd
    obtain ⟨c0, hc0, hdc⟩ := hd
    have hbase := pagesLoop_inv llm did dn pages 0 c0 hc0
    have hinv := splitOversized_inv c0 hbase d hdc
    refine ⟨?_, ?_⟩
    · show pyStrip d.content = d.content
      exact hinv.1
    · show 50 ≤ (pyStrip d.content).length
      rw [hinv.1]
      exact hinv.2

/-- Witness for C6 at a concrete input: one 60-character page, no LLM,
trivial embeddings. -/
theorem chunkPages_trimmed_min_witness :
    pyStrip (⟨"d".toList, "n".toList, List.replicate 60 'a', 1, none, 0, 15,
        some [], ⟨false, none, "text".toList⟩⟩ : Chunk).content =
      (⟨"d".toList, "n".toList, List.replicate 60 'a', 1, none, 0, 15,
        some [], ⟨false, none, "text".toList⟩⟩ : Chunk).content ∧
    50 ≤ (pyStrip (⟨"d".toList, "n".toList, List.replicate 60 'a', 1, none, 0,
        15, some [], ⟨false, none, "text".toList⟩⟩ : Chunk).content).length :=
  chunkPages_trimmed_min (fun _ => none) (fun _ => [])
    [⟨1, List.replicate 60 'a'⟩] "d".toList "n".toList
    ⟨"d".toList, "n".toList, List.replicate 60 'a', 1, none, 0, 15, some [],
      ⟨false, none, "text".toList⟩⟩ (by decide)

theorem replicate_nonempty (n : ℕ) (a : Char) (h : ¬ n = 0) :
    ¬ List.replicate n a = [] := by
  intro h0
  rw [List.replicate_eq_nil_iff] at h0
  exact h h0

theorem fallbackLoop_nil (did dn : List Char) (pn : ℕ) (cur : List Char)
    (idx : ℕ) :
    fallbackLoop did dn pn [] cur idx =
      if ¬ cur = [] ∧ 50 ≤ cur.length then [fbChunk did dn pn cur idx]
      else [] := rfl

theorem fallbackLoop_cons (did dn : List Char) (pn : ℕ) (para : List Char)
    (rest : List (List Char)) (cur : List Char) (idx : ℕ) :
    fallbackLoop did dn pn (para :: rest) cur idx =
      if pyStrip para = [] then fallbackLoop did dn pn rest cur idx
      else if ¬ cur = [] ∧ 2000 < cur.length + (pyStrip para).length then
        if 50 ≤ cur.length then
          fbChunk did dn pn cur idx ::
            fallbackLoop did dn pn rest (pyStrip para) (idx + 1)
        else fallbackLoop did dn pn rest (pyStrip para) idx
      else
        fallbackLoop did dn pn rest
          (if cur = [] then pyStrip para else cur ++ '\n' :: '\n' :: pyStrip para)
          idx := rfl

theorem pagesLoop_nil (llm : List Char → Option (List LlmChunkData))
    (did dn : List Char) (idx : ℕ) : pagesLoop llm did dn [] idx = [] := rfl

theorem pagesLoop_cons (llm : List Char → Option (List LlmChunkData))
    (did dn : List Char) (pn : ℕ) (cc : List Char)
    (rest : List ExtractedPage) (idx : ℕ) :
    pagesLoop llm did dn (⟨pn, cc⟩ :: rest) idx =
      if cc = [] ∨ (pyStrip cc).length < 50 then pagesLoop llm did dn rest idx
      else
        chunkText llm cc pn did dn idx ++
          pagesLoop llm did dn rest
            (idx + (chunkText llm cc pn did dn idx).length) := rfl

/-- Counterexample for C6: a 25,000-character page is fallback-chunked into
one chunk of index 0, the next page into a chunk of index 1; the oversized
chunk is then re-split before embedding into pieces of index 0 and 1, so
the final `chunk_pages` output carries chunk indexes [0, 1, 1] — not
strictly increasing within the document. -/
theorem chunkPages_index_collision :
    (chunkPages (fun _ => none) (fun _ => [])
        [⟨1, List.replicate 25000 'a'⟩, ⟨2, List.replicate 100 'b'⟩]
        "d".toList "n".toList).map (fun c => c.chunk_index) = [0, 1, 1] ∧
    ¬ List.Chain' (fun i j => i < j)
        ((chunkPages (fun _ => none) (fun _ => [])
          [⟨1, List.replicate 25000 'a'⟩, ⟨2, List.replicate 100 'b'⟩]
          "d".toList "n".toList).map (fun c => c.chunk_index)) := by
  have hstA : pyStrip (List.replicate 25000 'a') = List.replicate 25000 'a' :=
    pyStrip_of_nonspace (by decide) 25000
  have hstB : pyStrip (List.replicate 100 'b') = List.replicate 100 'b' :=
    pyStrip_of_nonspace (by decide) 100
  have hspA : split2 '\n' '\n' (List.replicate 25000 'a') =
      [List.replicate 25000 'a'] :=
    split2_no_sep _ _ _ (fun c hc => by rw [List.eq_of_mem_replicate hc]; decide)
  have hspB : split2 '\n' '\n' (List.replicate 100 'b') =
      [List.replicate 100 'b'] :=
    split2_no_sep _ _ _ (fun c hc => by rw [List.eq_of_mem_replicate hc]; decide)
  have hctabA : containsSeq "[Table]".toList (List.replicate 25000 'a') = false := by
    rw [show "[Table]".toList = '[' :: "Table]".toList from rfl]
    exact containsSeq_no_head _ _ _
      (fun c hc => by rw [List.eq_of_mem_replicate hc]; decide)
  have hctabB : containsSeq "[Table]".toList (List.replicate 100 'b') = false := by
    rw [show "[Table]".toList = '[' :: "Table]".toList from rfl]
    exact containsSeq_no_head _ _ _
      (fun c hc => by rw [List.eq_of_mem_replicate hc]; decide)
  have hneA : ¬ List.replicate 25000 'a' = [] :=
    replicate_nonempty 25000 'a' (by norm_num)
  have hneB : ¬ List.replicate 100 'b' = [] :=
    replicate_nonempty 100 'b' (by norm_num)
  have hx1 : (50:ℕ) ≤ 25000 := by norm_num
  have hx1b : (50:ℕ) ≤ 100 := by norm_num
  have hx2 : ¬ (25000:ℕ) < 50 := by norm_num
  have hx3 : ¬ (100:ℕ) < 50 := by norm_num
  have hfbA : fallbackChunk (List.replicate 25000 'a') 1 "d".toList "n".toList 0 =
      [⟨"d".toList, "n".toList, List.replicate 25000 'a', 1, none, 0, 0, none,
        ⟨false, none, "text".toList⟩⟩] := by
    have h1 : ¬ pyStrip (List.replicate 25000 'a') = [] :=
      fun h0 => hneA (hstA ▸ h0)
    unfold fallbackChunk
    rw [hspA, fallbackLoop_cons, if_neg h1]
    rw [if_neg (show ¬ (¬ ([] : List Char) = [] ∧
        2000 < ([] : List Char).length +
          (pyStrip (List.replicate 25000 'a')).length)
      from fun h => h.1 rfl)]
    rw [if_pos rfl, fallbackLoop_nil]
    rw [if_pos ⟨h1, by rw [hstA, List.length_replicate]; norm_num⟩]
    rw [hstA]
    unfold fbChunk
    rw [hstA, hctabA]
  have hfbB : fallbackChunk (List.replicate 100 'b') 2 "d".toList "n".toList 1 =
      [⟨"d".toList, "n".toList, List.replicate 100 'b', 2, none, 1, 0, none,
        ⟨false, none, "text".toList⟩⟩] := by
    have h1 : ¬ pyStrip (List.replicate 100 'b') = [] :=
      fun h0 => hneB (hstB ▸ h0)
    unfold fallbackChunk
    rw [hspB, fallbackLoop_cons, if_neg h1]
    rw [if_neg (show ¬ (¬ ([] : List Char) = [] ∧
        2000 < ([] : List Char).length +
          (pyStrip (List.replicate 100 'b')).length)
      from fun h => h.1 rfl)]
    rw [if_pos rfl, fallbackLoop_nil]
    rw [if_pos ⟨h1, by rw [hstB, List.length_replicate]; norm_num⟩]
    rw [hstB]
    unfold fbChunk
    rw [hstB, hctabB]
  have hct1 : chunkText (fun _ => none) (List.replicate 25000 'a') 1
      "d".toList "n".toList 0 = [⟨"d".toList, "n".toList, List.replicate 25000 'a', 1, none, 0, 0, none,
        ⟨false, none, "text".toList⟩⟩] := by
    unfold chunkText
    rw [if_neg (by rw [List.length_replicate]; norm_num)]
    exact hfbA
  have hct2 : chunkText (fun _ => none) (List.replicate 100 'b') 2
      "d".toList "n".toList 1 = [⟨"d".toList, "n".toList, List.replicate 100 'b', 2, none, 1, 0, none,
        ⟨false, none, "text".toList⟩⟩] := by
    unfold chunkText
    rw [if_pos (by rw [List.length_replicate]; norm_num)]
    exact hfbB
  have hpl : pagesLoop (fun _ => none) "d".toList "n".toList
      [⟨1, List.replicate 25000 'a'⟩, ⟨2, List.replicate 100 'b'⟩] 0 =
      [⟨"d".toList, "n".toList, List.replicate 25000 'a', 1, none, 0, 0, none,
        ⟨false, none, "text".toList⟩⟩,
       ⟨"d".toList, "n".toList, List.replicate 100 'b', 2, none, 1, 0, none,
        ⟨false, none, "text".toList⟩⟩] := by
    have hc1 : ¬ (List.replicate 25000 'a' = [] ∨
        (pyStrip (List.replicate 25000 'a')).length < 50) := by
      intro h
      rcases h with h0 | h0
      · exact hneA h0
      · rw [hstA, List.length_replicate] at h0
        norm_num at h0
    have hc2 : ¬ (List.replicate 100 'b' = [] ∨
        (pyStrip (List.replicate 100 'b')).length < 50) := by
      intro h
      rcases h with h0 | h0
      · exact hneB h0
      · rw [hstB, List.length_replicate] at h0
        norm_num at h0
    rw [pagesLoop_cons, if_neg hc1, hct1, List.length_singleton,
      pagesLoop_cons, if_neg hc2]
    rw [show (0:ℕ) + 1 = 1 from rfl, hct2, pagesLoop_nil, List.append_nil,
      List.singleton_append]
  have htk : (List.replicate 25000 'a').take 24000 = List.replicate 24000 'a' := by
    rw [List.take_replicate]
    norm_num
  have hdr : (List.replicate 25000 'a').drop 24000 = List.replicate 1000 'a' := by
    rw [List.drop_replicate]
  have hsl2 : splitLoop (⟨"d".toList, "n".toList, List.replicate 25000 'a', 1, none, 0, 0, none,
        ⟨false, none, "text".toList⟩⟩ : Chunk) (List.replicate 1000 'a') 1 =
      [subChunk (⟨"d".toList, "n".toList, List.replicate 25000 'a', 1, none, 0, 0, none,
        ⟨false, none, "text".toList⟩⟩ : Chunk) (List.replicate 1000 'a') 1] := by
    rw [splitLoop]
    rw [if_neg (replicate_nonempty 1000 'a' (by norm_num)),
      if_pos (by rw [List.length_replicate]; norm_num),
      if_pos ⟨replicate_nonempty 1000 'a' (by norm_num),
        by rw [List.length_replicate]; norm_num⟩]
  have hsl1 : splitLoop (⟨"d".toList, "n".toList, List.replicate 25000 'a', 1, none, 0, 0, none,
        ⟨false, none, "text".toList⟩⟩ : Chunk) (List.replicate 25000 'a') 0 =
      [subChunk (⟨"d".toList, "n".toList, List.replicate 25000 'a', 1, none, 0, 0, none,
        ⟨false, none, "text".toList⟩⟩ : Chunk) (List.replicate 24000 'a') 0,
       subChunk (⟨"d".toList, "n".toList, List.replicate 25000 'a', 1, none, 0, 0, none,
        ⟨false, none, "text".toList⟩⟩ : Chunk) (List.replicate 1000 'a') 1] := by
    rw [splitLoop]
    rw [if_neg (replicate_nonempty 25000 'a' (by norm_num)),
      if_neg (by rw [List.length_replicate]; norm_num)]
    rw [computeSplitPoint_replicate, htk, hdr,
      pyStrip_of_nonspace (by decide) 24000, pyStrip_of_nonspace (by decide) 1000]
    rw [if_pos ⟨replicate_nonempty 24000 'a' (by norm_num),
      by rw [List.length_replicate]; norm_num⟩]
    rw [show (0:ℕ) + 1 = 1 from rfl, hsl2]
  have hsoA : splitOversized (⟨"d".toList, "n".toList, List.replicate 25000 'a', 1, none, 0, 0, none,
        ⟨false, none, "text".toList⟩⟩ : Chunk) =
      [subChunk (⟨"d".toList, "n".toList, List.replicate 25000 'a', 1, none, 0, 0, none,
        ⟨false, none, "text".toList⟩⟩ : Chunk) (List.replicate 24000 'a') 0,
       subChunk (⟨"d".toList, "n".toList, List.replicate 25000 'a', 1, none, 0, 0, none,
        ⟨false, none, "text".toList⟩⟩ : Chunk) (List.replicate 1000 'a') 1] := by
    unfold splitOversized
    rw [show (⟨"d".toList, "n".toList, List.replicate 25000 'a', 1, none, 0, 0,
        none, ⟨false, none, "text".toList⟩⟩ : Chunk).content =
      List.replicate 25000 'a' from rfl]
    rw [if_neg (by rw [List.length_replicate]; norm_num), hsl1,
      if_neg (List.cons_ne_nil _ _)]
  have hsoB : splitOversized (⟨"d".toList, "n".toList, List.replicate 100 'b', 2, none, 1, 0, none,
        ⟨false, none, "text".toList⟩⟩ : Chunk) = [(⟨"d".toList, "n".toList, List.replicate 100 'b', 2, none, 1, 0, none,
        ⟨false, none, "text".toList⟩⟩ : Chunk)] := by
    unfold splitOversized
    rw [show (⟨"d".toList, "n".toList, List.replicate 100 'b', 2, none, 1, 0,
        none, ⟨false, none, "text".toList⟩⟩ : Chunk).content =
      List.replicate 100 'b' from rfl]
    rw [if_pos (by rw [List.length_replicate]; norm_num)]
  have hmap : (chunkPages (fun _ => none) (fun _ => [])
      [⟨1, List.replicate 25000 'a'⟩, ⟨2, List.replicate 100 'b'⟩]
      "d".toList "n".toList).map (fun c => c.chunk_index) = [0, 1, 1] := by
    unfold chunkPages
    rw [hpl, if_neg (List.cons_ne_nil _ _)]
    unfold addEmbeddings
    rw [if_neg (List.cons_ne_nil _ _)]
    rw [List.flatMap_cons, List.flatMap_cons, List.flatMap_nil, hsoA, hsoB,
      List.append_nil]
    rfl
  refine ⟨hmap, ?_⟩
  rw [hmap]
  simp only [List.chain'_cons, List.chain'_singleton]
  norm_num

/-- The reconstruction relation of the specification: the original text is
the given pieces in order, with only whitespace runs (the characters the
split points trimmed away) inserted before, between and after them. -/
inductive SpecRecon : List Char → List (List Char) → Prop
  | nil (w : List Char) (hw : ∀ c ∈ w, pyIsSpace c = true) : SpecRecon w []
  | piece (w p rest : List Char) (ps : List (List Char))
      (hw : ∀ c ∈ w, pyIsSpace c = true) (h : SpecRecon rest ps) :
      SpecRecon (w ++ (p ++ rest)) (p :: ps)

theorem specRecon_ws_left {v r : List Char} {ps : List (List Char)}
    (hv : ∀ c ∈ v, pyIsSpace c = true) (h : SpecRecon r ps) :
    SpecRecon (v ++ r) ps := by
  induction h with
  | nil w hw =>
    refine SpecRecon.nil (v ++ w) ?_
    intro c hc
    rcases List.mem_append.mp hc with hc | hc
    · exact hv c hc
    · exact hw c hc
  | piece w p rest ps hw hrec ih =>
    have h2 := SpecRecon.piece (v ++ w) p rest ps (by
      intro c hc
      rcases List.mem_append.mp hc with hc | hc
      · exact hv c hc
      · exact hw c hc) hrec
    rw [List.append_assoc] at h2
    exact h2

theorem specRecon_ws_right {r v : List Char} {ps : List (List Char)}
    (hv : ∀ c ∈ v, pyIsSpace c = true) (h : SpecRecon r ps) :
    SpecRecon (r ++ v) ps := by
  induction h with
  | nil w hw =>
    refine SpecRecon.nil (w ++ v) ?_
    intro c hc
    rcases List.mem_append.mp hc with hc | hc
    · exact hw c hc
    · exact hv c hc
  | piece w p rest ps hw hrec ih =>
    have h2 := SpecRecon.piece w p (rest ++ v) ps hw ih
    simpa [List.append_assoc] using h2

theorem specRecon_raw :
    ∀ (n : ℕ) (content : List Char), content.length ≤ n →
      SpecRecon content (rawSplitPieces content) := by
  intro n
  induction n with
  | zero =>
    intro content hlen
    have h0 : content = [] := List.length_eq_zero.mp (Nat.le_zero.mp hlen)
    subst h0
    rw [rawSplitPieces, if_pos rfl]
    exact SpecRecon.nil [] (by simp)
  | succ m ih =>
    intro content hlen
    by_cases h0 : content = []
    · subst h0
      rw [rawSplitPieces, if_pos rfl]
      exact SpecRecon.nil [] (by simp)
    · by_cases h24 : content.length ≤ 24000
      · rw [rawSplitPieces, if_neg h0, if_pos h24]
        have h2 := SpecRecon.piece [] content [] [] (by simp)
          (SpecRecon.nil [] (by simp))
        simpa using h2
      · rw [rawSplitPieces, if_neg h0, if_neg h24]
        obtain ⟨u, v, hu, hv, hdec⟩ :=
          pyStrip_decomp (content.take (computeSplitPoint content))
        obtain ⟨u2, v2, hu2, hv2, hdec2⟩ :=
          pyStrip_decomp (content.drop (computeSplitPoint content))
        have hih : SpecRecon
            (pyStrip (content.drop (computeSplitPoint content)))
            (rawSplitPieces (pyStrip (content.drop (computeSplitPoint content)))) := by
          apply ih
          have h1 := lt_computeSplitPoint content
          have h2 := length_pyStrip_le (content.drop (computeSplitPoint content))
          rw [List.length_drop] at h2
          omega
        have hr : SpecRecon
            (v ++ (u2 ++ (pyStrip (content.drop (computeSplitPoint content)) ++ v2)))
            (rawSplitPieces (pyStrip (content.drop (computeSplitPoint content)))) :=
          specRecon_ws_left hv (specRecon_ws_left hu2 (specRecon_ws_right hv2 hih))
        have hcontent : content =
            u ++ (pyStrip (content.take (computeSplitPoint content)) ++
              (v ++ (u2 ++ (pyStrip (content.drop (computeSplitPoint content)) ++ v2)))) := by
          conv_lhs => rw [← List.take_append_drop (computeSplitPoint content) content,
            hdec, hdec2]
          simp [List.append_assoc]
        have hpiece := SpecRecon.piece u
          (pyStrip (content.take (computeSplitPoint content)))
          (v ++ (u2 ++ (pyStrip (content.drop (computeSplitPoint content)) ++ v2)))
          (rawSplitPieces (pyStrip (content.drop (computeSplitPoint content))))
          hu hr
        rwa [← hcontent] at hpiece

theorem rawSplitPieces_le :
    ∀ (n : ℕ) (content : List Char), content.length ≤ n →
      ∀ p ∈ rawSplitPieces content, p.length ≤ 24000 := by
  intro n
  induction n with
  | zero =>
    intro content hlen p hp
    have h0 : content = [] := List.length_eq_zero.mp (Nat.le_zero.mp hlen)
    subst h0
    rw [rawSplitPieces, if_pos rfl] at hp
    simp at hp
  | succ m ih =>
    intro content hlen p hp
    rw [rawSplitPieces] at hp
    by_cases h0 : content = []
    · rw [if_pos h0] at hp
      simp at hp
    · rw [if_neg h0] at hp
      by_cases h24 : content.length ≤ 24000
      · rw [if_pos h24] at hp
        simp only [List.mem_singleton] at hp
        subst hp
        exact h24
      · rw [if_neg h24] at hp
        have hlt : (pyStrip (content.drop (computeSplitPoint content))).length <
            content.length := by
          refine Nat.lt_of_le_of_lt (length_pyStrip_le _) ?_
          rw [List.length_drop]
          have := lt_computeSplitPoint content
          omega
        rcases List.mem_cons.mp hp with rfl | hp2
        · refine le_trans (length_pyStrip_le _) ?_
          rw [List.length_take]
          have := computeSplitPoint_le content
          omega
        · exact ih _ (by omega) p hp2

theorem splitLoop_contents (c0 : Chunk) :
    ∀ (n : ℕ) (content : List Char) (k : ℕ), content.length ≤ n →
      (splitLoop c0 content k).map (fun d => d.content) =
        (rawSplitPieces content).filter
          (fun p => decide (¬ p = []) && decide (50 ≤ p.length)) := by
  intro n
  induction n with
  | zero =>
    intro content k hlen
    have h0 : content = [] := List.length_eq_zero.mp (Nat.le_zero.mp hlen)
    subst h0
    rw [splitLoop, if_pos rfl, rawSplitPieces, if_pos rfl]
    rfl
  | succ m ih =>
    intro content k hlen
    rw [splitLoop, rawSplitPieces]
    by_cases h0 : content = []
    · rw [if_pos h0, if_pos h0]
      rfl
    · rw [if_neg h0, if_neg h0]
      by_cases h24 : content.length ≤ 24000
      · rw [if_pos h24, if_pos h24]
        by_cases h50 : 50 ≤ content.length
        · rw [if_pos ⟨h0, h50⟩,
            List.filter_cons_of_pos (by
              simp only [Bool.and_eq_true, decide_eq_true_eq]
              exact ⟨h0, h50⟩),
            List.filter_nil]
          rfl
        · rw [if_neg (fun h => h50 h.2),
            List.filter_cons_of_neg (by
              simp only [Bool.and_eq_true, decide_eq_true_eq]
              exact fun h => h50 h.2),
            List.filter_nil]
          rfl
      · rw [if_neg h24, if_neg h24]
        have hlt : (pyStrip (content.drop (computeSplitPoint content))).length <
            content.length := by
          refine Nat.lt_of_le_of_lt (length_pyStrip_le _) ?_
          rw [List.length_drop]
          have := lt_computeSplitPoint content
          omega
        by_cases hg : ¬ pyStrip (content.take (computeSplitPoint content)) = [] ∧
            50 ≤ (pyStrip (content.take (computeSplitPoint content))).length
        · rw [if_pos hg,
            List.filter_cons_of_pos (by
              simp only [Bool.and_eq_true, decide_eq_true_eq]
              exact hg),
            List.map_cons, ih _ (k + 1) (by omega)]
          rfl
        · rw [if_neg hg,
            List.filter_cons_of_neg (by
              simp only [Bool.and_eq_true, decide_eq_true_eq]
              exact hg)]
          exact ih _ k (by omega)

/-- C7 (amended): for an oversized chunk, the piece decomposition the split
computes has every piece of length at most 24,000, and the original content
is reconstructed from those pieces modulo the whitespace trimmed at the
split points. However, `_split_oversized_chunk` then DROPS every piece
shorter than 50 characters (so the kept pieces need not reconstruct the
content — see the accompanying counterexample), and when every piece is
dropped it returns the original oversized chunk unsplit. -/
theorem splitOversized_pieces_recon (c : Chunk)
    (h24 : 24000 < c.content.length) :
    SpecRecon c.content (rawSplitPieces c.content) ∧
    (∀ p ∈ rawSplitPieces c.content, p.length ≤ 24000) ∧
    ((rawSplitPieces c.content).filter
        (fun p => decide (¬ p = []) && decide (50 ≤ p.length)) = [] →
      splitOversized c = [c]) ∧
    (¬ (rawSplitPieces c.content).filter
        (fun p => decide (¬ p = []) && decide (50 ≤ p.length)) = [] →
      (splitOversized c).map (fun d => d.content) =
        (rawSplitPieces c.content).filter
          (fun p => decide (¬ p = []) && decide (50 ≤ p.length))) := by
  refine ⟨specRecon_raw c.content.length c.content le_rfl,
    rawSplitPieces_le c.content.length c.content le_rfl, ?_, ?_⟩
  · intro hemp
    have hcont := splitLoop_contents c c.content.length c.content 0 le_rfl
    rw [hemp] at hcont
    have hnil : splitLoop c c.content 0 = [] := List.map_eq_nil_iff.mp hcont
    unfold splitOversized
    rw [if_neg (by omega), if_pos hnil]
  · intro hne
    have hcont := splitLoop_contents c c.content.length c.content 0 le_rfl
    have hnotnil : ¬ splitLoop c c.content 0 = [] := by
      intro h0
      rw [h0] at hcont
      exact hne hcont.symm
    unfold splitOversized
    rw [if_neg (by omega), if_neg hnotnil]
    exact hcont

/-- Witness for C7 at a concrete oversized chunk (25,000 characters). -/
theorem splitOversized_pieces_recon_witness :
    SpecRecon (⟨"d".toList, "n".toList, List.replicate 25000 'a', 1, none, 0,
        0, none, ⟨false, none, "text".toList⟩⟩ : Chunk).content
      (rawSplitPieces (⟨"d".toList, "n".toList, List.replicate 25000 'a', 1,
        none, 0, 0, none, ⟨false, none, "text".toList⟩⟩ : Chunk).content) ∧
    (∀ p ∈ rawSplitPieces (⟨"d".toList, "n".toList, List.replicate 25000 'a',
        1, none, 0, 0, none, ⟨false, none, "text".toList⟩⟩ : Chunk).content,
      p.length ≤ 24000) ∧
    ((rawSplitPieces (⟨"d".toList, "n".toList, List.replicate 25000 'a', 1,
        none, 0, 0, none, ⟨false, none, "text".toList⟩⟩ : Chunk).content).filter
        (fun p => decide (¬ p = []) && decide (50 ≤ p.length)) = [] →
      splitOversized (⟨"d".toList, "n".toList, List.replicate 25000 'a', 1,
        none, 0, 0, none, ⟨false, none, "text".toList⟩⟩ : Chunk) =
        [⟨"d".toList, "n".toList, List.replicate 25000 'a', 1, none, 0, 0,
          none, ⟨false, none, "text".toList⟩⟩]) ∧
    (¬ (rawSplitPieces (⟨"d".toList, "n".toList, List.replicate 25000 'a', 1,
        none, 0, 0, none, ⟨false, none, "text".toList⟩⟩ : Chunk).content).filter
        (fun p => decide (¬ p = []) && decide (50 ≤ p.length)) = [] →
      (splitOversized (⟨"d".toList, "n".toList, List.replicate 25000 'a', 1,
        none, 0, 0, none, ⟨false, none, "text".toList⟩⟩ : Chunk)).map
          (fun d => d.content) =
        (rawSplitPieces (⟨"d".toList, "n".toList, List.replicate 25000 'a', 1,
          none, 0, 0, none,
          ⟨false, none, "text".toList⟩⟩ : Chunk).content).filter
          (fun p => decide (¬ p = []) && decide (50 ≤ p.length))) :=
  splitOversized_pieces_recon
    ⟨"d".toList, "n".toList, List.replicate 25000 'a', 1, none, 0, 0, none,
      ⟨false, none, "text".toList⟩⟩
    (by rw [show (⟨"d".toList, "n".toList, List.replicate 25000 'a', 1, none,
        0, 0, none, ⟨false, none, "text".toList⟩⟩ : Chunk).content =
      List.replicate 25000 'a' from rfl, List.length_replicate]; norm_num)

theorem countP_replicate_of_pos {p : Char → Bool} {a : Char} (ha : p a = true) :
    ∀ n : ℕ, (List.replicate n a).countP p = n := by
  intro n
  induction n with
  | zero => simp
  | succ k ih =>
    rw [List.replicate_succ, List.countP_cons, ih, if_pos ha]

theorem specRecon_count {orig : List Char} {ps : List (List Char)}
    (h : SpecRecon orig ps) :
    orig.countP (fun c => ! pyIsSpace c) ≤ (ps.map List.length).sum := by
  induction h with
  | nil w hw =>
    have h0 : w.countP (fun c => ! pyIsSpace c) = 0 :=
      List.countP_eq_zero.mpr (fun a ha => by simp [hw a ha])
    simp [h0]
  | piece w p rest ps hw hrec ih =>
    have h0 : w.countP (fun c => ! pyIsSpace c) = 0 :=
      List.countP_eq_zero.mpr (fun a ha => by simp [hw a ha])
    rw [List.countP_append, List.countP_append, h0]
    have hp : p.countP (fun c => ! pyIsSpace c) ≤ p.length :=
      List.countP_le_length _
    simp only [List.map_cons, List.sum_cons]
    omega

/-- Counterexample for C7: a 24,010-character chunk splits into a kept
24,000-character piece and a dropped 10-character remainder, so the
returned pieces cannot reconstruct the original content — 10 characters
are silently lost. -/
theorem splitOversized_loses_content :
    splitOversized (⟨"d".toList, "n".toList, List.replicate 24010 'a', 1,
        none, 0, 0, none, ⟨false, none, "text".toList⟩⟩ : Chunk) =
      [subChunk (⟨"d".toList, "n".toList, List.replicate 24010 'a', 1, none,
        0, 0, none, ⟨false, none, "text".toList⟩⟩ : Chunk)
        (List.replicate 24000 'a') 0] ∧
    ¬ SpecRecon (List.replicate 24010 'a')
        ((splitOversized (⟨"d".toList, "n".toList, List.replicate 24010 'a',
          1, none, 0, 0, none, ⟨false, none, "text".toList⟩⟩ : Chunk)).map
          (fun d => d.content)) := by
  have htk : (List.replicate 24010 'a').take 24000 = List.replicate 24000 'a' := by
    rw [List.take_replicate]
    norm_num
  have hdr : (List.replicate 24010 'a').drop 24000 = List.replicate 10 'a' := by
    rw [List.drop_replicate]
  have hsl0 : splitLoop (⟨"d".toList, "n".toList, List.replicate 24010 'a', 1,
      none, 0, 0, none, ⟨false, none, "text".toList⟩⟩ : Chunk)
      (List.replicate 10 'a') 1 = [] := by
    rw [splitLoop]
    rw [if_neg (replicate_nonempty 10 'a' (by norm_num)),
      if_pos (by rw [List.length_replicate]; norm_num),
      if_neg (fun h => absurd h.2 (by rw [List.length_replicate]; norm_num))]
  have hsl : splitLoop (⟨"d".toList, "n".toList, List.replicate 24010 'a', 1,
      none, 0, 0, none, ⟨false, none, "text".toList⟩⟩ : Chunk)
      (List.replicate 24010 'a') 0 =
      [subChunk (⟨"d".toList, "n".toList, List.replicate 24010 'a', 1, none,
        0, 0, none, ⟨false, none, "text".toList⟩⟩ : Chunk)
        (List.replicate 24000 'a') 0] := by
    rw [splitLoop]
    rw [if_neg (replicate_nonempty 24010 'a' (by norm_num)),
      if_neg (by rw [List.length_replicate]; norm_num)]
    rw [computeSplitPoint_replicate, htk, hdr,
      pyStrip_of_nonspace (by decide) 24000, pyStrip_of_nonspace (by decide) 10]
    rw [if_pos ⟨replicate_nonempty 24000 'a' (by norm_num),
      by rw [List.length_replicate]; norm_num⟩]
    rw [show (0:ℕ) + 1 = 1 from rfl, hsl0]
  have hso : splitOversized (⟨"d".toList, "n".toList,
      List.replicate 24010 'a', 1, none, 0, 0, none,
      ⟨false, none, "text".toList⟩⟩ : Chunk) =
      [subChunk (⟨"d".toList, "n".toList, List.replicate 24010 'a', 1, none,
        0, 0, none, ⟨false, none, "text".toList⟩⟩ : Chunk)
        (List.replicate 24000 'a') 0] := by
    unfold splitOversized
    rw [show (⟨"d".toList, "n".toList, List.replicate 24010 'a', 1, none, 0,
        0, none, ⟨false, none, "text".toList⟩⟩ : Chunk).content =
      List.replicate 24010 'a' from rfl]
    rw [if_neg (by rw [List.length_replicate]; norm_num), hsl,
      if_neg (List.cons_ne_nil _ _)]
  refine ⟨hso, ?_⟩
  rw [hso, show ([subChunk (⟨"d".toList, "n".toList,
      List.replicate 24010 'a', 1, none, 0, 0, none,
      ⟨false, none, "text".toList⟩⟩ : Chunk)
      (List.replicate 24000 'a') 0].map (fun d => d.content)) =
    [List.replicate 24000 'a'] from rfl]
  intro hrec
  have hcount := specRecon_count hrec
  rw [countP_replicate_of_pos (by decide) 24010, List.map_cons, List.map_nil,
    List.sum_cons, List.sum_nil, List.length_replicate] at hcount
  omega

end SmartRag
